import Mathlib

/-!
Verification of the structural-extraction core of the loc-rs repository.

Text is modelled as `List Char` (Rust `&str` is valid UTF-8, so it is a
sequence of Unicode scalar values). Where the source manipulates raw byte
offsets (the `LineMap`, `str::find`/`rfind` results, slice indices) we
compute the UTF-8 byte encoding explicitly with `utf8EncodeChar`/`utf8Bytes`.
All substring patterns used by the source (`"impl "`, `"#[test]"`, `"\n\n"`,
quote fences, keywords) are pure ASCII; an ASCII byte never occurs inside
the multi-byte encoding of another character (continuation and lead bytes
are ≥ 0x80), so byte-level occurrences of those patterns coincide with
char-level occurrences and byte-level `contains`/`ends_with`/`rfind` on them
are faithfully mirrored at the char level.
-/

/-- Unicode White_Space property, the set used both by Rust's
`char::is_whitespace` (`str::trim*`) and by the regex crate's `\s`. -/
def isRustWs (c : Char) : Bool :=
  let v := c.val.toNat
  (0x09 ≤ v ∧ v ≤ 0x0D) ∨ v = 0x20 ∨ v = 0x85 ∨ v = 0xA0 ∨ v = 0x1680 ∨
  (0x2000 ≤ v ∧ v ≤ 0x200A) ∨ v = 0x2028 ∨ v = 0x2029 ∨ v = 0x202F ∨
  v = 0x205F ∨ v = 0x3000

/-- `str::trim_start`. -/
def rustTrimStart (s : List Char) : List Char := s.dropWhile isRustWs

/-- `str::trim_end`. -/
def rustTrimEnd (s : List Char) : List Char :=
  (s.reverse.dropWhile isRustWs).reverse

/-- `str::trim`. -/
def rustTrim (s : List Char) : List Char := rustTrimEnd (rustTrimStart s)

/-- Split on newline characters, keeping every (possibly empty) chunk:
`"a\nb"` gives `[a, b]`, `"a\n"` gives `[a, []]`. -/
def splitNl : List Char → List (List Char)
  | [] => [[]]
  | c :: rest =>
    if c = '\n' then [] :: splitNl rest
    else
      match splitNl rest with
      | g :: gs => (c :: g) :: gs
      | [] => [[c]]

/-- Strip one trailing carriage return, as each line of `str::lines` does. -/
def stripCr (l : List Char) : List Char :=
  if l.getLast? = some '\r' then l.dropLast else l

/-- `str::lines`: split on `'\n'`, drop a final empty chunk (so a trailing
newline does not create an extra line), strip one trailing `'\r'` per line. -/
def rustLines (s : List Char) : List (List Char) :=
  let parts := splitNl s
  let parts := if parts.getLast? = some [] then parts.dropLast else parts
  parts.map stripCr

/-- UTF-8 encoding of one Unicode scalar value, as a list of byte values. -/
def utf8EncodeChar (c : Char) : List Nat :=
  if c.val.toNat < 0x80 then [c.val.toNat]
  else if c.val.toNat < 0x800 then
    [0xC0 + c.val.toNat / 0x40, 0x80 + c.val.toNat % 0x40]
  else if c.val.toNat < 0x10000 then
    [0xE0 + c.val.toNat / 0x1000, 0x80 + c.val.toNat / 0x40 % 0x40,
     0x80 + c.val.toNat % 0x40]
  else
    [0xF0 + c.val.toNat / 0x40000, 0x80 + c.val.toNat / 0x1000 % 0x40,
     0x80 + c.val.toNat / 0x40 % 0x40, 0x80 + c.val.toNat % 0x40]

/-- The UTF-8 byte sequence of a string (`str::as_bytes`). -/
def utf8Bytes (s : List Char) : List Nat :=
  s.foldr (fun c acc => utf8EncodeChar c ++ acc) []

/-- Offsets pushed by `LineMap::new`'s loop: for every byte index `i`
holding a `b'\n'`, the value `i + 1` (the byte list is scanned with a
running index starting at `i0`). -/
def newlineOffsetsAux : List Nat → Nat → List Nat
  | [], _ => []
  | b :: bs, i =>
    (if b = 10 then [i + 1] else []) ++ newlineOffsetsAux bs (i + 1)

/-- `LineMap::new`: byte offset 0 followed by the offset just past every
newline byte. The list is strictly increasing. -/
def lineOffsets (s : List Char) : List Nat :=
  0 :: newlineOffsetsAux (utf8Bytes s) 0

/-- `LineMap::offset_to_line`. The source runs `offsets.binary_search(&offset)`
and maps `Ok(idx) ↦ idx + 1`, `Err(idx) ↦ idx`. On the strictly increasing
`offsets` list, `Ok idx` means `offsets[idx] = o` so exactly `idx + 1`
elements are `≤ o`, and `Err idx` means `idx` elements are `< o` (hence
`≤ o`, as `o` is absent). In both cases the result is the number of stored
offsets that are `≤ o`, which is what we compute. -/
def offsetToLine (offsets : List Nat) (o : Nat) : Nat :=
  offsets.countP (fun x => x ≤ o)

/-- Scan for non-overlapping occurrences of `pat`; after counting an
occurrence the next `pat.length - 1` positions are skipped (`skip` holds the
number of positions still to skip), so occurrences never overlap. -/
def countMatchesAux (pat : List Char) : List Char → Nat → Nat
  | [], _ => 0
  | c :: rest, skip =>
    if 0 < skip then countMatchesAux pat rest (skip - 1)
    else if pat ≠ [] ∧ pat.isPrefixOf (c :: rest) then
      1 + countMatchesAux pat rest (pat.length - 1)
    else countMatchesAux pat rest 0

/-- Count of non-overlapping occurrences of `pat`, scanning left to right:
the semantics of Rust's `line.matches(kw).count()`. -/
def countMatches (pat : List Char) (s : List Char) : Nat :=
  countMatchesAux pat s 0

/-- The fixed keyword set of `estimate_complexity`. -/
def complexityKeywords : List (List Char) :=
  ["if ".data, "else if".data, "elif ".data, " while ".data, " for ".data,
   " match ".data, "case ".data, " catch ".data, " except ".data,
   "&&".data, "||".data, "? ".data]

/-- Keyword occurrences contributed by one line of the block. -/
def lineComplexity (line : List Char) : Nat :=
  (complexityKeywords.map (fun kw => countMatches kw line)).sum

/-- `estimate_complexity`: starts at 1 and adds one per keyword occurrence
per line of the resolved block. -/
def estimateComplexity (block : List (List Char)) : Nat :=
  1 + (block.map lineComplexity).sum

/-- The field-retention test of `parse_params`: keep a trimmed field iff it
is non-empty and not the literal `void`. -/
def keepParamField (t : List Char) : Bool :=
  ¬(t = [] ∨ t = "void".data)

/-- The accumulator loop of `parse_params`: `cur` is the `current` buffer,
`depth` the bracket depth; a comma at depth 0 flushes the trimmed buffer
(kept only when non-empty and not `"void"`), and the final buffer is
flushed the same way after the loop. -/
def parseParamsAux (cs : List Char) (cur : List Char) (depth : Int) :
    List (List Char) :=
  match cs with
  | [] =>
    let t := rustTrim cur
    if keepParamField t then [t] else []
  | c :: rest =>
    if c = '<' ∨ c = '[' ∨ c = '(' then
      parseParamsAux rest (cur ++ [c]) (depth + 1)
    else if c = '>' ∨ c = ']' ∨ c = ')' then
      parseParamsAux rest (cur ++ [c]) (depth - 1)
    else if c = ',' ∧ depth = 0 then
      (let t := rustTrim cur
       if keepParamField t then [t] else []) ++ parseParamsAux rest [] depth
    else parseParamsAux rest (cur ++ [c]) depth

/-- `parse_params`. -/
def parseParams (raw : List Char) : List (List Char) :=
  parseParamsAux raw [] 0

/-- Specification-side splitter (§4.5 of the spec): cut the raw substring at
every comma occurring at bracket depth 0, keeping all (possibly empty)
fields in source order. -/
def splitTopAux (cs : List Char) (cur : List Char) (depth : Int) :
    List (List Char) :=
  match cs with
  | [] => [cur]
  | c :: rest =>
    if c = '<' ∨ c = '[' ∨ c = '(' then
      splitTopAux rest (cur ++ [c]) (depth + 1)
    else if c = '>' ∨ c = ']' ∨ c = ')' then
      splitTopAux rest (cur ++ [c]) (depth - 1)
    else if c = ',' ∧ depth = 0 then
      cur :: splitTopAux rest [] depth
    else splitTopAux rest (cur ++ [c]) depth

/-- Specification-side split of a raw parameter substring at top-level commas. -/
def splitTopLevelCommas (raw : List Char) : List (List Char) :=
  splitTopAux raw [] 0

/-- `str::contains` with a string pattern: substring occurrence test. -/
def containsSub (s pat : List Char) : Bool :=
  match s with
  | [] => pat.isEmpty
  | _ :: rest => pat.isPrefixOf s || containsSub rest pat

/-- `str::ends_with` with a string pattern. -/
def endsWithSub (s pat : List Char) : Bool := pat.isSuffixOf s

/-- The double-quote character. -/
def dquote : Char := Char.ofNat 34
/-- The single-quote character. -/
def squote : Char := Char.ofNat 39
/-- The backtick character. -/
def btick : Char := Char.ofNat 96
/-- The opening brace character. -/
def obrace : Char := Char.ofNat 123
/-- The closing brace character. -/
def cbrace : Char := Char.ofNat 125

/-- The mutable locals of `find_closing_brace`'s line loop (`escapedEol` is
re-initialised at every line). -/
structure FcbSt where
  depth : Int
  started : Bool
  inString : Bool
  stringChar : Char
  escapedEol : Bool
deriving DecidableEq

/-- `find_closing_brace`'s single-quote lookahead: the 1-based distance of
the first closing single quote among the remaining characters of the line. -/
def closeQuoteDist : List Char → Option Nat
  | [] => none
  | c :: rest =>
    if c = squote then some 1 else (closeQuoteDist rest).map (· + 1)

/-- The character loop of `find_closing_brace` over one line. Returns
`(found, st)` where `found` records that the early `return` fired on this
line (depth returned to ≤ 0 on a closing brace after having been started). -/
def fcbChars : List Char → FcbSt → Bool × FcbSt
  | [], st => (false, st)
  | c :: rest, st =>
    if st.inString then
      if c = '\\' then
        match rest with
        | [] => (false, { st with escapedEol := true })
        | _ :: rest' => fcbChars rest' st
      else if c = st.stringChar then fcbChars rest { st with inString := false }
      else fcbChars rest st
    else if c = dquote ∨ c = btick then
      fcbChars rest { st with inString := true, stringChar := c }
    else if c = squote then
      match closeQuoteDist rest with
      | some d =>
        if d < 12 then fcbChars rest { st with inString := true, stringChar := c }
        else fcbChars rest st
      | none => fcbChars rest st
    else if c = '/' ∧ rest.head? = some '/' then (false, st)
    else if c = obrace then
      fcbChars rest { st with depth := st.depth + 1, started := true }
    else if c = cbrace then
      if st.started ∧ st.depth - 1 ≤ 0 then (true, { st with depth := st.depth - 1 })
      else fcbChars rest { st with depth := st.depth - 1 }
    else fcbChars rest st

/-- The line loop of `find_closing_brace`: `i` is the enumeration index into
the slice `lines[start_line-1 ..]`; `some i` is an early return. At end of a
line the string state is reset unless the line ended mid-escape or the
literal is a (multi-line) backtick string. -/
def fcbLines : List (List Char) → Nat → Int → Bool → Bool → Char → Option Nat
  | [], _, _, _, _, _ => none
  | line :: rest, i, depth, started, inString, stringChar =>
    match fcbChars line ⟨depth, started, inString, stringChar, false⟩ with
    | (true, _) => some i
    | (false, st) =>
      let inStr := if st.inString ∧ ¬st.escapedEol ∧ st.stringChar ≠ btick
        then false else st.inString
      fcbLines rest (i + 1) st.depth st.started inStr st.stringChar

/-- `find_closing_brace`: brace-depth scan from line `startLine` (1-based);
on failure the 80-line safety valve `(start_line + 80).min(lines.len())`. -/
def findClosingBrace (lines : List (List Char)) (startLine : Nat) : Nat :=
  match fcbLines (lines.drop (startLine - 1)) 0 0 false false ' ' with
  | some i => startLine + i
  | none => min (startLine + 80) lines.length

/-- Byte length of the leading whitespace of a line:
`line.len() - line.trim_start().len()` (both Rust lengths are in bytes). -/
def lineIndent (line : List Char) : Nat :=
  (utf8Bytes line).length - (utf8Bytes (rustTrimStart line)).length

/-- The scan loop shared by `find_python_end` and `find_indentation_end`:
skip blank and `#`-comment lines; stop at the first line whose indent is
`≤ base_indent`. `some i` is the enumeration index into `lines[start_line..]`. -/
def indentEndAux : List (List Char) → Nat → Nat → Option Nat
  | [], _, _ => none
  | line :: rest, i, base =>
    if rustTrim line = [] ∨ (rustTrimStart line).head? = some '#' then
      indentEndAux rest (i + 1) base
    else if lineIndent line ≤ base then some i
    else indentEndAux rest (i + 1) base

/-- `find_python_end` (python.rs): body ends at the first following
non-blank, non-comment line indented at most `baseIndent`; else at EOF. -/
def findPythonEnd (lines : List (List Char)) (startLine baseIndent : Nat) : Nat :=
  match indentEndAux (lines.drop startLine) 0 baseIndent with
  | some i => startLine + i
  | none => lines.length

/-- `find_indentation_end` (nim.rs) — textually the same algorithm as
`find_python_end`, duplicated in the source. -/
def findIndentationEnd (lines : List (List Char)) (startLine baseIndent : Nat) : Nat :=
  match indentEndAux (lines.drop startLine) 0 baseIndent with
  | some i => startLine + i
  | none => lines.length

/-- The block-opener prefixes of `find_ruby_end`. -/
def rubyOpeners : List (List Char) :=
  ["def ".data, "class ".data, "module ".data, "if ".data, "unless ".data,
   "while ".data, "for ".data, "case ".data, "begin".data]

/-- The line loop of `find_ruby_end`: trimmed comment lines are skipped;
depth rises on opener lines (prefix in `rubyOpeners`, or ending in
`" do"`, or equal to `"do"`); it falls on closer lines (`"end"`, prefix
`"end "`, or suffix `" end"`), returning the index when it reaches ≤ 0. -/
def rubyEndAux : List (List Char) → Nat → Int → Option Nat
  | [], _, _ => none
  | line :: rest, i, depth =>
    let t := rustTrim line
    if t.head? = some '#' then rubyEndAux rest (i + 1) depth
    else
      let d1 := if rubyOpeners.any (fun p => p.isPrefixOf t) ∨
          (" do".data).isSuffixOf t ∨ t = "do".data then depth + 1 else depth
      if t = "end".data ∨ ("end ".data).isPrefixOf t ∨ (" end".data).isSuffixOf t then
        if d1 - 1 ≤ 0 then some i else rubyEndAux rest (i + 1) (d1 - 1)
      else rubyEndAux rest (i + 1) d1

/-- `find_ruby_end` (ruby.rs): keyword-depth scan from `startLine`
(1-based); falls back to `lines.len()` when no closer is found. -/
def findRubyEnd (lines : List (List Char)) (startLine : Nat) : Nat :=
  match rubyEndAux (lines.drop (startLine - 1)) 0 0 with
  | some i => startLine + i
  | none => lines.length

/-- The start positions (in increasing order) of every occurrence of `pat`
in `s`. -/
def occPositions (s pat : List Char) : List Nat :=
  (List.range (s.length + 1)).filter (fun i => pat.isPrefixOf (s.drop i))

/-- `rfind` with a string pattern: the start of the last occurrence. -/
def rfindSub (s pat : List Char) : Option Nat := (occPositions s pat).getLast?

/-- `find` with a string pattern: the start of the first occurrence. -/
def findSub (s pat : List Char) : Option Nat := (occPositions s pat).head?

/-- `models::FunctionInfo`. Strings are `List Char`. -/
structure FunctionInfo where
  name : List Char
  line_start : Nat
  line_end : Nat
  parameters : List (List Char)
  is_async : Bool
  is_method : Bool
  is_class : Bool
  docstring : Option (List Char)
  decorators : List (List Char)
  complexity : Nat
deriving DecidableEq

/-- One regex match as consumed by an extractor loop: `start` is the byte
offset of the match start (what `m.start()` returns and `LineMap` consumes),
`startChar` the same position counted in characters (regex matches always
start at character boundaries, and for the ASCII patterns inspected by the
extractors the two views of the prefix `content[..m.start()]` coincide),
`text` the matched text `content[m.start()..m.end()]`, and the remaining
fields the optional named capture groups used by the various languages. -/
structure RegexMatch where
  start : Nat
  startChar : Nat := 0
  text : List Char := []
  name : Option (List Char) := none
  params : Option (List Char) := none
  indent : Nat := 0
  hasAsync : Bool := false
  hasPub : Bool := false
deriving DecidableEq

/-- The `"?"` fallback used by every `map_or("?", ...)` name capture. -/
def qmarkName : List Char := "?".data

/-- The ordering key of the final `functions.sort_by_key(|f| f.line_start)`. -/
def byStart (a b : FunctionInfo) : Prop := a.line_start ≤ b.line_start

instance : DecidableRel byStart := fun _ _ => Nat.decLe _ _
instance : IsTotal FunctionInfo byStart := ⟨fun _ _ => Nat.le_total _ _⟩
instance : IsTrans FunctionInfo byStart := ⟨fun _ _ _ => Nat.le_trans⟩

/-- `HashSet`-based deduplication by match start offset: a match whose
`start` was already seen is skipped (`if !seen.insert(m.start()) { continue }`). -/
def dedupByStart : List RegexMatch → List Nat → List RegexMatch
  | [], _ => []
  | m :: rest, seen =>
    if m.start ∈ seen then dedupByStart rest seen
    else m :: dedupByStart rest (m.start :: seen)

/-- The block slice `&lines[line_start.saturating_sub(1)..line_end.min(lines.len())]`. -/
def blockSlice (lines : List (List Char)) (lineStart lineEnd : Nat) : List (List Char) :=
  (lines.drop (lineStart - 1)).take (min lineEnd lines.length - (lineStart - 1))

/-- `RustExtractor::extract`'s look-back for test attributes: the record is
skipped when the right-trimmed prefix before the match either ends with `]`
while containing `#[test]`, or contains `#[tokio::test]`. This is the
(`&&` before `||`) condition of rust.rs lines 37–39; `keep` is its negation. -/
def rustKeepsFn (content : List Char) (i : Nat) : Bool :=
  let preTrim := rustTrimEnd (content.take i)
  ¬((endsWithSub preTrim "]".data ∧ containsSub preTrim "#[test]".data) ∨
    containsSub preTrim "#[tokio::test]".data)

/-- `RustExtractor::extract`'s method heuristic: the last occurrence of
`"impl "` before the match start, if any, must not be separated from the
match by a double newline (rust.rs lines 50–53). -/
def rustIsMethod (content : List Char) (i : Nat) : Bool :=
  let pre := content.take i
  match rfindSub pre "impl ".data with
  | some pos => ¬containsSub (pre.drop pos) "\n\n".data
  | none => false

/-- The fn-record constructor of `RustExtractor::extract`'s first loop. -/
def mkRustFnRecord (content : List Char) (lines : List (List Char))
    (offsets : List Nat) (m : RegexMatch) : FunctionInfo :=
  let lineStart := offsetToLine offsets m.start
  let lineEnd := findClosingBrace lines lineStart
  { name := m.name.getD qmarkName
    line_start := lineStart
    line_end := lineEnd
    parameters := parseParams (m.params.getD [])
    is_async := m.hasAsync
    is_method := rustIsMethod content m.startChar
    is_class := false
    docstring := none
    decorators := if m.hasPub then ["pub".data] else []
    complexity := estimateComplexity (blockSlice lines lineStart lineEnd) }

/-- The struct-record constructor of `RustExtractor::extract`'s second loop. -/
def mkRustStructRecord (lines : List (List Char)) (offsets : List Nat)
    (m : RegexMatch) : FunctionInfo :=
  let lineStart := offsetToLine offsets m.start
  { name := m.name.getD qmarkName
    line_start := lineStart
    line_end := findClosingBrace lines lineStart
    parameters := []
    is_async := false
    is_method := false
    is_class := true
    docstring := none
    decorators := []
    complexity := 1 }

/-- `RustExtractor::extract`, parametrised by the match lists produced by
`RE_RUST_FN` and `RE_RUST_STRUCT`: fn matches are deduplicated by start
offset, filtered by the test-attribute look-back, and turned into records;
struct records are appended; the result is sorted by `line_start`. -/
def rustExtractFromMatches (content : List Char)
    (fnMs structMs : List RegexMatch) : List FunctionInfo :=
  let lines := rustLines content
  let offsets := lineOffsets content
  let fns := ((dedupByStart fnMs []).filter
      (fun m => rustKeepsFn content m.startChar)).map
    (mkRustFnRecord content lines offsets)
  let structs := structMs.map (mkRustStructRecord lines offsets)
  List.insertionSort byStart (fns ++ structs)

/-- `RE_GO_RECV` (`^func\s+\([^)]+\)`) tested against the matched text,
deciding Go's `is_method`. -/
def goRecvTest (t : List Char) : Bool :=
  if ("func".data).isPrefixOf t then
    let r1 := t.drop 4
    let ws := r1.takeWhile isRustWs
    if ws = [] then false
    else
      match r1.drop ws.length with
      | c :: r2 =>
        if c = '(' then
          let body := r2.takeWhile (fun x => x ≠ ')')
          if body = [] then false
          else
            match r2.drop body.length with
            | c2 :: _ => c2 = ')'
            | [] => false
        else false
      | [] => false
  else false

/-- The record constructor of `GoExtractor::extract`'s loop. -/
def mkGoRecord (lines : List (List Char)) (offsets : List Nat)
    (m : RegexMatch) : FunctionInfo :=
  let lineStart := offsetToLine offsets m.start
  let lineEnd := findClosingBrace lines lineStart
  { name := m.name.getD qmarkName
    line_start := lineStart
    line_end := lineEnd
    parameters := parseParams (m.params.getD [])
    is_async := false
    is_method := goRecvTest m.text
    is_class := false
    docstring := none
    decorators := []
    complexity := estimateComplexity (blockSlice lines lineStart lineEnd) }

/-- `GoExtractor::extract`, parametrised by the `RE_GO_FN` matches: no
deduplication, no name denylist, no final sort. -/
def goExtractFromMatches (content : List Char) (ms : List RegexMatch) :
    List FunctionInfo :=
  let lines := rustLines content
  let offsets := lineOffsets content
  ms.map (mkGoRecord lines offsets)

/-- The `SKIP` denylist of `CppExtractor::extract`. -/
def cppSkip : List (List Char) :=
  ["if".data, "for".data, "while".data, "switch".data, "do".data, "return".data]

/-- The record constructor of `CppExtractor::extract`'s loop. -/
def mkCppRecord (lines : List (List Char)) (offsets : List Nat)
    (m : RegexMatch) : FunctionInfo :=
  let lineStart := offsetToLine offsets m.start
  let lineEnd := findClosingBrace lines lineStart
  { name := m.name.getD qmarkName
    line_start := lineStart
    line_end := lineEnd
    parameters := parseParams (m.params.getD [])
    is_async := false
    is_method := false
    is_class := false
    docstring := none
    decorators := []
    complexity := estimateComplexity (blockSlice lines lineStart lineEnd) }

/-- `CppExtractor::extract`: dedup by start, drop denylisted names, build
records in match order; no final sort. -/
def cppExtractFromMatches (content : List Char) (ms : List RegexMatch) :
    List FunctionInfo :=
  let lines := rustLines content
  let offsets := lineOffsets content
  ((dedupByStart ms []).filter
      (fun m => ¬(m.name.getD qmarkName) ∈ cppSkip)).map
    (mkCppRecord lines offsets)

/-- The `SKIP` denylist of `JavaExtractor::extract`. -/
def javaSkip : List (List Char) :=
  ["if".data, "for".data, "while".data, "switch".data, "catch".data,
   "try".data, "else".data, "do".data]

/-- The record constructor of `JavaExtractor::extract`'s loop
(`is_method` is always true for the Java family). -/
def mkJavaRecord (lines : List (List Char)) (offsets : List Nat)
    (m : RegexMatch) : FunctionInfo :=
  let lineStart := offsetToLine offsets m.start
  let lineEnd := findClosingBrace lines lineStart
  { name := m.name.getD qmarkName
    line_start := lineStart
    line_end := lineEnd
    parameters := parseParams (m.params.getD [])
    is_async := false
    is_method := true
    is_class := false
    docstring := none
    decorators := []
    complexity := estimateComplexity (blockSlice lines lineStart lineEnd) }

/-- `JavaExtractor::extract`: dedup by start, drop denylisted names; no sort. -/
def javaExtractFromMatches (content : List Char) (ms : List RegexMatch) :
    List FunctionInfo :=
  let lines := rustLines content
  let offsets := lineOffsets content
  ((dedupByStart ms []).filter
      (fun m => ¬(m.name.getD qmarkName) ∈ javaSkip)).map
    (mkJavaRecord lines offsets)

/-- The record constructor of `NimExtractor::extract`'s loop: `is_method`
iff the match text starts with `method`, and Nim's `*` export marker is
modelled as the synthetic decorator `public(*)`. -/
def mkNimRecord (lines : List (List Char)) (offsets : List Nat)
    (m : RegexMatch) : FunctionInfo :=
  let lineStart := offsetToLine offsets m.start
  let lineEnd := findIndentationEnd lines lineStart m.indent
  { name := m.name.getD qmarkName
    line_start := lineStart
    line_end := lineEnd
    parameters := parseParams (m.params.getD [])
    is_async := false
    is_method := ("method".data).isPrefixOf m.text
    is_class := false
    docstring := none
    decorators := if m.text.contains '*' then ["public(*)".data] else []
    complexity := estimateComplexity (blockSlice lines lineStart lineEnd) }

/-- `NimExtractor::extract`: records in match order; no dedup, no sort. -/
def nimExtractFromMatches (content : List Char) (ms : List RegexMatch) :
    List FunctionInfo :=
  let lines := rustLines content
  let offsets := lineOffsets content
  ms.map (mkNimRecord lines offsets)

/-- Three double quotes, the first docstring fence. -/
def dq3 : List Char := [dquote, dquote, dquote]
/-- Three single quotes, the second docstring fence. -/
def sq3 : List Char := [squote, squote, squote]

/-- `extract_py_docstring` (char-level view): scan lines 2–6 of the block;
on the first trimmed line starting with a fence, return the text up to the
closing fence on the same line, or the whole remainder after the opening
fence; `None` when no fence line is found. -/
def extractPyDocstring (block : List (List Char)) : Option (List Char) :=
  go ((block.drop 1).take 5)
where
  go : List (List Char) → Option (List Char)
  | [] => none
  | line :: rest =>
    let t := rustTrim line
    if dq3.isPrefixOf t ∨ sq3.isPrefixOf t then
      let q := if dq3.isPrefixOf t then dq3 else sq3
      let inner := t.drop 3
      match findSub inner q with
      | some e => some (rustTrim (inner.take e))
      | none => some (rustTrim inner)
    else go rest

/-- One line's match of `RE_PY_DECORATOR` (`^[ \t]*@([a-zA-Z_][a-zA-Z0-9_.]*)`):
the captured decorator name, if the line carries one. -/
def pyDecoLine (line : List Char) : Option (List Char) :=
  let r := line.dropWhile (fun c => c = ' ' ∨ c = '\t')
  match r with
  | c :: rest =>
    if c = '@' then
      match rest with
      | d :: rest' =>
        if d.isAlpha ∨ d = '_' then
          some (d :: rest'.takeWhile (fun x => x.isAlpha ∨ x.isDigit ∨ x = '_' ∨ x = '.'))
        else none
      | [] => none
    else none
  | [] => none

/-- `collect_python_decorators`: take the text between the last blank line
(`rfind("\n\n")`, or the start of the file) and the match start, and collect
every decorator name matched at a line start within it. -/
def collectPyDecorators (content : List Char) (fnStart : Nat) : List (List Char) :=
  let before := content.take fnStart
  let lastBlank := (rfindSub before "\n\n".data).getD 0
  (splitNl (before.drop lastBlank)).filterMap pyDecoLine

/-- The fn-record constructor of `PythonExtractor::extract`'s first loop. -/
def mkPyFnRecord (content : List Char) (lines : List (List Char))
    (offsets : List Nat) (m : RegexMatch) : FunctionInfo :=
  let lineStart := offsetToLine offsets m.start
  let lineEnd := findPythonEnd lines lineStart m.indent
  let params := parseParams (m.params.getD [])
  let block := blockSlice lines lineStart lineEnd
  { name := m.name.getD qmarkName
    line_start := lineStart
    line_end := lineEnd
    parameters := params
    is_async := m.hasAsync
    is_method := params.head? = some "self".data ∨ params.head? = some "cls".data
    is_class := false
    docstring := extractPyDocstring block
    decorators := collectPyDecorators content m.startChar
    complexity := estimateComplexity block }

/-- The class-record constructor of `PythonExtractor::extract`'s second
loop (the captured base-class list goes through `parse_params`). -/
def mkPyClassRecord (lines : List (List Char)) (offsets : List Nat)
    (m : RegexMatch) : FunctionInfo :=
  let lineStart := offsetToLine offsets m.start
  { name := m.name.getD qmarkName
    line_start := lineStart
    line_end := findPythonEnd lines lineStart m.indent
    parameters := parseParams (m.params.getD [])
    is_async := false
    is_method := false
    is_class := true
    docstring := none
    decorators := []
    complexity := 1 }

/-- `PythonExtractor::extract`: fn records then class records (no dedup in
either loop), sorted by `line_start`. -/
def pythonExtractFromMatches (content : List Char)
    (fnMs classMs : List RegexMatch) : List FunctionInfo :=
  let lines := rustLines content
  let offsets := lineOffsets content
  let fns := fnMs.map (mkPyFnRecord content lines offsets)
  let classes := classMs.map (mkPyClassRecord lines offsets)
  List.insertionSort byStart (fns ++ classes)

/-- The fn-record constructor of `RubyExtractor::extract`'s first loop:
`is_method` iff the matched text contains `self.`. -/
def mkRubyFnRecord (lines : List (List Char)) (offsets : List Nat)
    (m : RegexMatch) : FunctionInfo :=
  let lineStart := offsetToLine offsets m.start
  let lineEnd := findRubyEnd lines lineStart
  { name := m.name.getD qmarkName
    line_start := lineStart
    line_end := lineEnd
    parameters := parseParams (m.params.getD [])
    is_async := false
    is_method := containsSub m.text "self.".data
    is_class := false
    docstring := none
    decorators := []
    complexity := estimateComplexity (blockSlice lines lineStart lineEnd) }

/-- The class-record constructor of `RubyExtractor::extract`'s second loop. -/
def mkRubyClassRecord (lines : List (List Char)) (offsets : List Nat)
    (m : RegexMatch) : FunctionInfo :=
  let lineStart := offsetToLine offsets m.start
  { name := m.name.getD qmarkName
    line_start := lineStart
    line_end := findRubyEnd lines lineStart
    parameters := []
    is_async := false
    is_method := false
    is_class := true
    docstring := none
    decorators := []
    complexity := 1 }

/-- `RubyExtractor::extract`: fn matches deduplicated by start offset, class
matches not; result sorted by `line_start`. -/
def rubyExtractFromMatches (content : List Char)
    (fnMs classMs : List RegexMatch) : List FunctionInfo :=
  let lines := rustLines content
  let offsets := lineOffsets content
  let fns := (dedupByStart fnMs []).map (mkRubyFnRecord lines offsets)
  let classes := classMs.map (mkRubyClassRecord lines offsets)
  List.insertionSort byStart (fns ++ classes)

/-- The `SKIP` denylist of `JavascriptExtractor::extract`. -/
def jsSkip : List (List Char) :=
  ["if".data, "for".data, "while".data, "switch".data, "catch".data,
   "constructor".data, "return".data]

/-- The fn-record constructor of `JavascriptExtractor::extract`'s pattern
loops: `is_async` iff the matched text contains `async `(with space),
`is_method` always false. -/
def mkJsFnRecord (lines : List (List Char)) (offsets : List Nat)
    (m : RegexMatch) : FunctionInfo :=
  let lineStart := offsetToLine offsets m.start
  let lineEnd := findClosingBrace lines lineStart
  { name := m.name.getD qmarkName
    line_start := lineStart
    line_end := lineEnd
    parameters := parseParams (m.params.getD [])
    is_async := containsSub m.text "async ".data
    is_method := false
    is_class := false
    docstring := none
    decorators := []
    complexity := estimateComplexity (blockSlice lines lineStart lineEnd) }

/-- The class-record constructor of `JavascriptExtractor::extract`. -/
def mkJsClassRecord (lines : List (List Char)) (offsets : List Nat)
    (m : RegexMatch) : FunctionInfo :=
  let lineStart := offsetToLine offsets m.start
  { name := m.name.getD qmarkName
    line_start := lineStart
    line_end := findClosingBrace lines lineStart
    parameters := []
    is_async := false
    is_method := false
    is_class := true
    docstring := none
    decorators := []
    complexity := 1 }

/-- `JavascriptExtractor::extract`, with `fnMs` the concatenated matches of
the three alternative patterns in pattern order: one Hash-set deduplicates
across the patterns, denylisted names are dropped, class records appended,
result sorted by `line_start`. -/
def jsExtractFromMatches (content : List Char)
    (fnMs classMs : List RegexMatch) : List FunctionInfo :=
  let lines := rustLines content
  let offsets := lineOffsets content
  let fns := ((dedupByStart fnMs []).filter
      (fun m => ¬(m.name.getD qmarkName) ∈ jsSkip)).map
    (mkJsFnRecord lines offsets)
  let classes := classMs.map (mkJsClassRecord lines offsets)
  List.insertionSort byStart (fns ++ classes)

/-- The fn-record constructor of `PhpExtractor::extract`: `is_method` iff
the matched text contains `public`, `private` or `protected`. -/
def mkPhpFnRecord (lines : List (List Char)) (offsets : List Nat)
    (m : RegexMatch) : FunctionInfo :=
  let lineStart := offsetToLine offsets m.start
  let lineEnd := findClosingBrace lines lineStart
  { name := m.name.getD qmarkName
    line_start := lineStart
    line_end := lineEnd
    parameters := parseParams (m.params.getD [])
    is_async := false
    is_method := containsSub m.text "public".data ∨
      containsSub m.text "private".data ∨ containsSub m.text "protected".data
    is_class := false
    docstring := none
    decorators := []
    complexity := estimateComplexity (blockSlice lines lineStart lineEnd) }

/-- The class-record constructor of `PhpExtractor::extract`. -/
def mkPhpClassRecord (lines : List (List Char)) (offsets : List Nat)
    (m : RegexMatch) : FunctionInfo :=
  let lineStart := offsetToLine offsets m.start
  { name := m.name.getD qmarkName
    line_start := lineStart
    line_end := findClosingBrace lines lineStart
    parameters := []
    is_async := false
    is_method := false
    is_class := true
    docstring := none
    decorators := []
    complexity := 1 }

/-- `PhpExtractor::extract`: fn matches deduplicated, class matches not;
result sorted by `line_start`. -/
def phpExtractFromMatches (content : List Char)
    (fnMs classMs : List RegexMatch) : List FunctionInfo :=
  let lines := rustLines content
  let offsets := lineOffsets content
  let fns := (dedupByStart fnMs []).map (mkPhpFnRecord lines offsets)
  let classes := classMs.map (mkPhpClassRecord lines offsets)
  List.insertionSort byStart (fns ++ classes)

/-- The fn-record constructor of `SwiftExtractor::extract`: `is_method` per
the `mutating `/`override `/`static `/`class func` markers and `is_async`
iff the text contains `async`. -/
def mkSwiftFnRecord (lines : List (List Char)) (offsets : List Nat)
    (m : RegexMatch) : FunctionInfo :=
  let lineStart := offsetToLine offsets m.start
  let lineEnd := findClosingBrace lines lineStart
  { name := m.name.getD qmarkName
    line_start := lineStart
    line_end := lineEnd
    parameters := parseParams (m.params.getD [])
    is_async := containsSub m.text "async".data
    is_method := containsSub m.text "mutating ".data ∨
      containsSub m.text "override ".data ∨
      containsSub m.text "static ".data ∨
      containsSub m.text "class func".data
    is_class := false
    docstring := none
    decorators := []
    complexity := estimateComplexity (blockSlice lines lineStart lineEnd) }

/-- The class-record constructor of `SwiftExtractor::extract`. -/
def mkSwiftClassRecord (lines : List (List Char)) (offsets : List Nat)
    (m : RegexMatch) : FunctionInfo :=
  let lineStart := offsetToLine offsets m.start
  { name := m.name.getD qmarkName
    line_start := lineStart
    line_end := findClosingBrace lines lineStart
    parameters := []
    is_async := false
    is_method := false
    is_class := true
    docstring := none
    decorators := []
    complexity := 1 }

/-- `SwiftExtractor::extract`: fn matches deduplicated, class matches not;
result sorted by `line_start`. -/
def swiftExtractFromMatches (content : List Char)
    (fnMs classMs : List RegexMatch) : List FunctionInfo :=
  let lines := rustLines content
  let offsets := lineOffsets content
  let fns := (dedupByStart fnMs []).map (mkSwiftFnRecord lines offsets)
  let classes := classMs.map (mkSwiftClassRecord lines offsets)
  List.insertionSort byStart (fns ++ classes)

/-- The ten concrete extractors selectable by `get_extractor`. -/
inductive Lang
  | rust | python | javascript | go | cpp | java | php | swift | ruby | nim
deriving DecidableEq

/-- Every extension string (lowercased, with leading dot) that
`get_extractor` maps to an extractor. -/
def knownExtensions : List String :=
  [".rs", ".py", ".pyw", ".pyi", ".js", ".mjs", ".cjs", ".ts", ".tsx",
   ".jsx", ".go", ".c", ".h", ".cpp", ".cc", ".cxx", ".hpp", ".hxx",
   ".java", ".kt", ".kts", ".cs", ".scala", ".php", ".php3", ".php4",
   ".php5", ".phtml", ".swift", ".rb", ".rake", ".gemspec", ".nim", ".nims"]

/-- `get_extractor`'s `match` over the lowercased dot-extension. -/
def getExtractor (ext : String) : Option Lang :=
  if ext = ".rs" then some .rust
  else if ext = ".py" ∨ ext = ".pyw" ∨ ext = ".pyi" then some .python
  else if ext = ".js" ∨ ext = ".mjs" ∨ ext = ".cjs" ∨ ext = ".ts" ∨
      ext = ".tsx" ∨ ext = ".jsx" then some .javascript
  else if ext = ".go" then some .go
  else if ext = ".c" ∨ ext = ".h" ∨ ext = ".cpp" ∨ ext = ".cc" ∨
      ext = ".cxx" ∨ ext = ".hpp" ∨ ext = ".hxx" then some .cpp
  else if ext = ".java" ∨ ext = ".kt" ∨ ext = ".kts" ∨ ext = ".cs" ∨
      ext = ".scala" then some .java
  else if ext = ".php" ∨ ext = ".php3" ∨ ext = ".php4" ∨ ext = ".php5" ∨
      ext = ".phtml" then some .php
  else if ext = ".swift" then some .swift
  else if ext = ".rb" ∨ ext = ".rake" ∨ ext = ".gemspec" then some .ruby
  else if ext = ".nim" ∨ ext = ".nims" then some .nim
  else none

/-- `extract_file_functions` (counter/mod.rs), parametrised by the per-
language extract implementations and by the outcome of
`std::fs::read_to_string` (`none` models the `Err(_)` arm): an extractor is
dispatched on the extension when one exists, and every failure path
degrades to the empty list. -/
def extractFileFunctions (run : Lang → List Char → List FunctionInfo)
    (readResult : Option (List Char)) (ext : String) : List FunctionInfo :=
  match readResult with
  | some content =>
    match getExtractor ext with
    | some l => run l content
    | none => []
  | none => []

/-- `[a-zA-Z_]`, the leading character class of the name captures. -/
def isNameStart (c : Char) : Bool := c.isAlpha ∨ c = '_'

/-- `[a-zA-Z0-9_]`, the continuation class of the name captures. -/
def isNameChar (c : Char) : Bool := c.isAlpha ∨ c.isDigit ∨ c = '_'

/-- Character positions at which `(?m)^` asserts: 0 and every position just
after a newline. -/
def charLineStartsAux : List Char → Nat → List Nat
  | [], _ => []
  | c :: rest, i => (if c = '\n' then [i + 1] else []) ++ charLineStartsAux rest (i + 1)

/-- All line-start character positions of `s`. -/
def charLineStarts (s : List Char) : List Nat := 0 :: charLineStartsAux s 0

/-- Byte offset of the character position `i` of `s`. -/
def byteOffsetOfChar (s : List Char) (i : Nat) : Nat :=
  (utf8Bytes (s.take i)).length

/-- The data a line-anchored pattern yields at one match: consumed length
(in characters) and the captured groups. -/
structure ParseOut where
  len : Nat
  name : Option (List Char) := none
  params : Option (List Char) := none
  indent : Nat := 0
deriving DecidableEq

/-- `Regex::captures_iter` for a `(?m)`-line-anchored pattern: try the
pattern at each line start in increasing order, skipping starts that fall
inside the previous match (the next search of `find_iter` begins at the end
of the previous match). -/
def iterMatchesAux (parse : List Char → Option ParseOut) (s : List Char) :
    List Nat → Nat → List RegexMatch
  | [], _ => []
  | p :: ps, minPos =>
    if p < minPos then iterMatchesAux parse s ps minPos
    else
      match parse (s.drop p) with
      | some o =>
        ⟨byteOffsetOfChar s p, p, (s.drop p).take o.len, o.name, o.params,
          o.indent, false, false⟩ :: iterMatchesAux parse s ps (p + o.len)
      | none => iterMatchesAux parse s ps minPos

/-- All matches of a line-anchored pattern over `s`. -/
def iterMatches (parse : List Char → Option ParseOut) (s : List Char) :
    List RegexMatch :=
  iterMatchesAux parse s (charLineStarts s) 0

/-- `RE_GO_FN` (`^func\s+(?:\([^)]+\)\s+)?name\s*\(params\)`) applied at a
line start: the optional receiver group is committed deterministically —
when the character after `func\s+` is `(`, a failed receiver also fails the
name (a name cannot start with `(`), so no backtracking is observable. -/
def goFnParse (u : List Char) : Option ParseOut := do
  guard (("func".data).isPrefixOf u)
  let r1 := u.drop 4
  let ws := r1.takeWhile isRustWs
  guard (ws ≠ [])
  let r2 := r1.drop ws.length
  let r3 ←
    match r2 with
    | '(' :: rb =>
      let body := rb.takeWhile (fun c => c ≠ ')')
      if body = [] then none
      else
        match rb.drop body.length with
        | ')' :: rc =>
          let ws2 := rc.takeWhile isRustWs
          if ws2 = [] then none else some (rc.drop ws2.length)
        | _ => none
    | _ => some r2
  match r3 with
  | c :: r4 =>
    if isNameStart c then
      let nm := r4.takeWhile isNameChar
      let r5 := (r4.drop nm.length).dropWhile isRustWs
      match r5 with
      | '(' :: r6 =>
        let ps := r6.takeWhile (fun x => x ≠ ')')
        match r6.drop ps.length with
        | ')' :: r7 =>
          some ⟨u.length - r7.length, some (c :: nm), some ps, 0⟩
        | _ => none
      | _ => none
    else none
  | [] => none

/-- The `RE_GO_FN` matches of a Go source text. -/
def goFnMatches (s : List Char) : List RegexMatch := iterMatches goFnParse s

/-- `GoExtractor::extract`, end to end. -/
def goExtract (s : List Char) : List FunctionInfo :=
  goExtractFromMatches s (goFnMatches s)

/-- `[a-zA-Z0-9_!?=]`, the continuation class of Ruby method names. -/
def rubyNameChar (c : Char) : Bool :=
  c.isAlpha ∨ c.isDigit ∨ c = '_' ∨ c = '!' ∨ c = '?' ∨ c = '='

/-- Parse one identifier of `RE_RUBY_FN`'s name class. -/
def rubyNameParse (v : List Char) : Option (List Char × List Char) :=
  match v with
  | c :: r =>
    if isNameStart c then
      let nm := r.takeWhile rubyNameChar
      some (c :: nm, r.drop nm.length)
    else none
  | [] => none

/-- `RE_RUBY_FN` (`^[ \t]*def\s+(?:self\.)?name(?:\s*\(params\))?`) applied
at a line start. The optional `self.` group backtracks: if the name fails
after `self.`, the group is dropped and `self` itself becomes the name. The
optional parameter group is taken only when `\s*\(...\)` matches fully. -/
def rubyFnParse (u : List Char) : Option ParseOut := do
  let ind := u.takeWhile (fun c => c = ' ' ∨ c = '\t')
  let r1 := u.drop ind.length
  guard (("def".data).isPrefixOf r1)
  let r2 := r1.drop 3
  let ws := r2.takeWhile isRustWs
  guard (ws ≠ [])
  let r3 := r2.drop ws.length
  let withSelf : Option (List Char × List Char) :=
    if ("self.".data).isPrefixOf r3 then rubyNameParse (r3.drop 5) else none
  let (name, r4) ← withSelf <|> rubyNameParse r3
  let afterWs := r4.dropWhile isRustWs
  match afterWs with
  | '(' :: r5 =>
    let ps := r5.takeWhile (fun x => x ≠ ')')
    match r5.drop ps.length with
    | ')' :: r6 => some ⟨u.length - r6.length, some name, some ps, ind.length⟩
    | _ => some ⟨u.length - r4.length, some name, none, ind.length⟩
  | _ => some ⟨u.length - r4.length, some name, none, ind.length⟩

/-- `[a-zA-Z0-9_:]`, the continuation class of a Ruby base-class name. -/
def rubyConstChar (c : Char) : Bool :=
  c.isAlpha ∨ c.isDigit ∨ c = '_' ∨ c = ':'

/-- One keyword alternative of `RE_RUBY_CLASS`
(`kw\s+[A-Z][a-zA-Z0-9_]*(?:\s*<\s*[A-Z][a-zA-Z0-9_:]*)?`). -/
def rubyClassKw (kw : List Char) (u : List Char) (r1 : List Char) :
    Option ParseOut := do
  guard (kw.isPrefixOf r1)
  let r2 := r1.drop kw.length
  let ws := r2.takeWhile isRustWs
  guard (ws ≠ [])
  let r3 := r2.drop ws.length
  match r3 with
  | c :: r4 =>
    if c.isUpper then
      let nm := r4.takeWhile isNameChar
      let r5 := r4.drop nm.length
      let after := r5.dropWhile isRustWs
      match after with
      | '<' :: r6 =>
        let r7 := r6.dropWhile isRustWs
        match r7 with
        | d :: r8 =>
          if d.isUpper then
            let nm2 := r8.takeWhile rubyConstChar
            some ⟨u.length - (r8.drop nm2.length).length, some (c :: nm), none, 0⟩
          else some ⟨u.length - r5.length, some (c :: nm), none, 0⟩
        | [] => some ⟨u.length - r5.length, some (c :: nm), none, 0⟩
      | _ => some ⟨u.length - r5.length, some (c :: nm), none, 0⟩
    else none
  | [] => none

/-- `RE_RUBY_CLASS` applied at a line start: `class` is tried before
`module`. -/
def rubyClassParse (u : List Char) : Option ParseOut :=
  let r1 := u.drop (u.takeWhile (fun c => c = ' ' ∨ c = '\t')).length
  rubyClassKw "class".data u r1 <|> rubyClassKw "module".data u r1

/-- The `RE_RUBY_FN` matches of a Ruby source text. -/
def rubyFnMatches (s : List Char) : List RegexMatch := iterMatches rubyFnParse s

/-- The `RE_RUBY_CLASS` matches of a Ruby source text. -/
def rubyClassMatches (s : List Char) : List RegexMatch :=
  iterMatches rubyClassParse s

/-- `RubyExtractor::extract`, end to end. -/
def rubyExtract (s : List Char) : List FunctionInfo :=
  rubyExtractFromMatches s (rubyFnMatches s) (rubyClassMatches s)

theorem utf8Bytes_nil : utf8Bytes [] = [] := rfl

theorem utf8Bytes_cons (c : Char) (s : List Char) :
    utf8Bytes (c :: s) = utf8EncodeChar c ++ utf8Bytes s := rfl

theorem utf8EncodeChar_ne_nil (c : Char) : utf8EncodeChar c ≠ [] := by
  unfold utf8EncodeChar
  split_ifs <;> simp

theorem utf8Bytes_eq_nil_iff (s : List Char) : utf8Bytes s = [] ↔ s = [] := by
  cases s with
  | nil => simp [utf8Bytes_nil]
  | cons c rest =>
    simp [utf8Bytes_cons, utf8EncodeChar_ne_nil]

theorem char_eq_nl_iff (c : Char) : c = '\n' ↔ c.val.toNat = 10 := by
  constructor
  · rintro rfl; rfl
  · intro h; exact Char.ext (UInt32.toNat.inj h)

theorem count10_utf8EncodeChar (c : Char) :
    (utf8EncodeChar c).count 10 = if c = '\n' then 1 else 0 := by
  unfold utf8EncodeChar
  split_ifs with h1 h2 h3 h4 h5 h6 h7 <;>
    simp_all [List.count_cons, char_eq_nl_iff, UInt32.size] <;> omega

theorem count10_utf8Bytes (s : List Char) :
    (utf8Bytes s).count 10 = s.count '\n' := by
  induction s with
  | nil => rfl
  | cons c rest ih =>
    rw [utf8Bytes_cons, List.count_append, count10_utf8EncodeChar, ih,
      List.count_cons]
    by_cases h : c = '\n'
    · simp [h]
      omega
    · simp [h]

theorem getLast?_cons_of_ne_nil {α : Type} (a : α) {l : List α} (h : l ≠ []) :
    (a :: l).getLast? = l.getLast? := by
  cases l with
  | nil => exact absurd rfl h
  | cons b r => exact List.getLast?_cons_cons

theorem getLast10_utf8EncodeChar (c : Char) :
    (utf8EncodeChar c).getLast? = some 10 ↔ c = '\n' := by
  unfold utf8EncodeChar
  split_ifs with h1 h2 h3 <;>
    simp [char_eq_nl_iff, UInt32.size] <;> omega

theorem getLast10_utf8Bytes (s : List Char) :
    (utf8Bytes s).getLast? = some 10 ↔ s.getLast? = some '\n' := by
  induction s with
  | nil => simp [utf8Bytes_nil]
  | cons c rest ih =>
    rw [utf8Bytes_cons]
    cases hr : rest with
    | nil =>
      simp only [utf8Bytes_nil, List.append_nil]
      rw [getLast10_utf8EncodeChar]
      simp
    | cons d r =>
      have hne : utf8Bytes rest ≠ [] := by
        rw [hr]; intro he
        exact absurd ((utf8Bytes_eq_nil_iff _).mp he) (by simp)
      rw [← hr, List.getLast?_append_of_ne_nil _ hne, ih,
        getLast?_cons_of_ne_nil c (by rw [hr]; simp)]

theorem splitNl_ne_nil (s : List Char) : splitNl s ≠ [] := by
  induction s with
  | nil => simp [splitNl]
  | cons c rest ih =>
    unfold splitNl
    split_ifs with h
    · simp
    · cases hs : splitNl rest with
      | nil => exact absurd hs ih
      | cons g gs => simp

theorem splitNl_length (s : List Char) :
    (splitNl s).length = s.count '\n' + 1 := by
  induction s with
  | nil => simp [splitNl]
  | cons c rest ih =>
    unfold splitNl
    split_ifs with h
    · simp [List.count_cons, h, ih]
    · cases hs : splitNl rest with
      | nil => exact absurd hs (splitNl_ne_nil rest)
      | cons g gs =>
        have := ih
        rw [hs] at this
        simp only [List.length_cons] at this ⊢
        simp [List.count_cons, h, this]

theorem splitNl_singleton {s : List Char} {g : List Char}
    (h : splitNl s = [g]) : g = s := by
  induction s generalizing g with
  | nil =>
    unfold splitNl at h
    simp only [List.cons.injEq, and_true] at h
    exact h.symm
  | cons c rest ih =>
    unfold splitNl at h
    split_ifs at h with hc
    · simp only [List.cons.injEq] at h
      exact absurd h.2 (splitNl_ne_nil rest)
    · cases hs : splitNl rest with
      | nil => exact absurd hs (splitNl_ne_nil rest)
      | cons g' gs =>
        rw [hs] at h
        simp only [List.cons.injEq] at h
        obtain ⟨h1, h2⟩ := h
        subst h2
        rw [ih hs] at h1
        exact h1.symm

theorem splitNl_getLast_empty_iff (s : List Char) :
    (splitNl s).getLast? = some [] ↔ s = [] ∨ s.getLast? = some '\n' := by
  induction s with
  | nil => simp [splitNl]
  | cons c rest ih =>
    unfold splitNl
    split_ifs with hc
    · rw [getLast?_cons_of_ne_nil _ (splitNl_ne_nil rest), ih]
      cases hr : rest with
      | nil => simp [hc]
      | cons d r =>
        rw [← hr, getLast?_cons_of_ne_nil c (by rw [hr]; simp)]
        simp [hr]
    · cases hs : splitNl rest with
      | nil => exact absurd hs (splitNl_ne_nil rest)
      | cons g gs =>
        cases gs with
        | nil =>
          have hg : g = rest := splitNl_singleton hs
          constructor
          · intro h
            simp at h
          · intro h
            rcases h with h | h
            · exact absurd h (by simp)
            · exfalso
              cases hr : rest with
              | nil =>
                rw [hr] at h
                simp at h
                exact hc h
              | cons d r =>
                rw [hr, List.getLast?_cons_cons] at h
                have h9 : (splitNl rest).getLast? = some [] :=
                  ih.mpr (Or.inr (by rw [hr]; exact h))
                rw [hs] at h9
                simp at h9
                have hre : rest = [] := hg.symm.trans h9
                rw [hr] at hre
                simp at hre
        | cons g2 gs2 =>
          have hrest : rest ≠ [] := by
            intro he
            rw [he] at hs
            unfold splitNl at hs
            simp at hs
          rw [List.getLast?_cons_cons, ← List.getLast?_cons_cons (a := g), ← hs, ih,
            getLast?_cons_of_ne_nil c hrest]
          simp [hrest]

theorem rustLines_length (s : List Char) :
    (rustLines s).length =
      if (splitNl s).getLast? = some [] then s.count '\n'
      else s.count '\n' + 1 := by
  have he : rustLines s =
      (if (splitNl s).getLast? = some [] then (splitNl s).dropLast
       else splitNl s).map stripCr := rfl
  rw [he]
  split_ifs with h
  · simp only [List.length_map, List.length_dropLast, splitNl_length]
    omega
  · simp [splitNl_length]

theorem mem_newlineOffsetsAux {bs : List Nat} {i x : Nat}
    (h : x ∈ newlineOffsetsAux bs i) : i < x := by
  induction bs generalizing i with
  | nil => simp [newlineOffsetsAux] at h
  | cons b rest ih =>
    unfold newlineOffsetsAux at h
    rw [List.mem_append] at h
    rcases h with h | h
    · split_ifs at h with hb
      · simp at h; omega
      · simp at h
    · have := ih h
      omega

theorem countP_newlineOffsetsAux (bs : List Nat) (i o : Nat) :
    (newlineOffsetsAux bs i).countP (fun x => x ≤ i + o) =
      (bs.take o).count 10 := by
  induction bs generalizing i o with
  | nil => simp [newlineOffsetsAux]
  | cons b rest ih =>
    cases o with
    | zero =>
      simp only [List.take_zero, List.count_nil]
      apply List.countP_eq_zero.mpr
      intro x hx
      have := mem_newlineOffsetsAux hx
      simp only [Nat.add_zero, decide_eq_true_eq]
      omega
    | succ o' =>
      unfold newlineOffsetsAux
      rw [List.countP_append]
      have h2 : (newlineOffsetsAux rest (i + 1)).countP
          (fun x => x ≤ i + (o' + 1)) = (rest.take o').count 10 := by
        have := ih (i + 1) o'
        have he : i + 1 + o' = i + (o' + 1) := by omega
        rw [he] at this
        exact this
      rw [h2]
      split_ifs with hb
      · rw [List.take_succ_cons, List.count_cons]
        have h3 : ((i + 1 : Nat) ≤ i + (o' + 1)) := by omega
        simp [List.countP_cons, h3, hb]
        omega
      · rw [List.take_succ_cons, List.count_cons]
        simp [hb]

theorem estimateComplexity_pos (block : List (List Char)) :
    1 ≤ estimateComplexity block := Nat.le_add_right 1 _

theorem offsetToLine_pos (offsets : List Nat) (o : Nat) :
    1 ≤ offsetToLine (0 :: offsets) o := by
  unfold offsetToLine
  rw [List.countP_cons]
  simp

theorem offsetToLine_le_linesLength (s : List Char) (o : Nat)
    (h : o < (utf8Bytes s).length) :
    offsetToLine (lineOffsets s) o ≤ (rustLines s).length := by
  have hbs : utf8Bytes s ≠ [] := by
    intro he; rw [he] at h; simp at h
  have hs : s ≠ [] := fun he => hbs (by rw [he]; rfl)
  have hcount : (newlineOffsetsAux (utf8Bytes s) 0).countP
      (fun x => x ≤ o) = ((utf8Bytes s).take o).count 10 := by
    have := countP_newlineOffsetsAux (utf8Bytes s) 0 o
    simpa using this
  unfold offsetToLine lineOffsets
  rw [List.countP_cons, hcount, rustLines_length]
  simp only [decide_eq_true_eq, Nat.zero_le, if_true]
  split_ifs with hlast
  · have h2 : s.getLast? = some '\n' := by
      rcases (splitNl_getLast_empty_iff s).mp hlast with h' | h'
      · exact absurd h' hs
      · exact h'
    have h3 : (utf8Bytes s).getLast? = some 10 := (getLast10_utf8Bytes s).mpr h2
    have h4 : (utf8Bytes s).dropLast ++ [10] = utf8Bytes s :=
      List.dropLast_append_getLast? 10 h3
    have h5 : (utf8Bytes s).count 10 = ((utf8Bytes s).dropLast).count 10 + 1 := by
      conv_lhs => rw [← h4]
      simp
    have h6 : ((utf8Bytes s).take o).count 10 ≤
        ((utf8Bytes s).dropLast).count 10 := by
      have he : (utf8Bytes s).take o = ((utf8Bytes s).dropLast).take o := by
        rw [List.dropLast_eq_take, List.take_take]
        congr 1
        omega
      rw [he]
      exact (List.take_sublist o _).count_le 10
    rw [← count10_utf8Bytes]
    omega
  · have h6 : ((utf8Bytes s).take o).count 10 ≤ (utf8Bytes s).count 10 :=
      (List.take_sublist o _).count_le 10
    rw [← count10_utf8Bytes]
    omega

theorem findClosingBrace_ge {lines : List (List Char)} {ls : Nat}
    (h : ls ≤ lines.length) : ls ≤ findClosingBrace lines ls := by
  unfold findClosingBrace
  split
  · exact Nat.le_add_right ls _
  · exact Nat.le_min.mpr ⟨Nat.le_add_right ls 80, h⟩

theorem findPythonEnd_ge {lines : List (List Char)} {ls ind : Nat}
    (h : ls ≤ lines.length) : ls ≤ findPythonEnd lines ls ind := by
  unfold findPythonEnd
  split
  · exact Nat.le_add_right ls _
  · exact h

theorem findIndentationEnd_ge {lines : List (List Char)} {ls ind : Nat}
    (h : ls ≤ lines.length) : ls ≤ findIndentationEnd lines ls ind := by
  unfold findIndentationEnd
  split
  · exact Nat.le_add_right ls _
  · exact h

theorem findRubyEnd_ge {lines : List (List Char)} {ls : Nat}
    (h : ls ≤ lines.length) : ls ≤ findRubyEnd lines ls := by
  unfold findRubyEnd
  split
  · exact Nat.le_add_right ls _
  · exact h

/-- The record invariant of §3/§8 of the spec. -/
def recInvariant (r : FunctionInfo) : Prop :=
  r.line_start ≤ r.line_end ∧ 1 ≤ r.complexity

theorem dedupByStart_sublist (ms : List RegexMatch) (seen : List Nat) :
    List.Sublist (dedupByStart ms seen) ms := by
  induction ms generalizing seen with
  | nil => exact List.Sublist.refl []
  | cons m rest ih =>
    unfold dedupByStart
    split_ifs
    · exact (ih seen).cons m
    · exact (ih (m.start :: seen)).cons₂ m

theorem mem_of_mem_dedupByStart {ms : List RegexMatch} {seen : List Nat}
    {m : RegexMatch} (h : m ∈ dedupByStart ms seen) : m ∈ ms :=
  (dedupByStart_sublist ms seen).subset h

theorem recInvariant_mkGoRecord (s : List Char) (m : RegexMatch)
    (h : m.start < (utf8Bytes s).length) :
    recInvariant (mkGoRecord (rustLines s) (lineOffsets s) m) := by
  unfold recInvariant mkGoRecord
  refine ⟨?_, ?_⟩
  · simp only []
    exact findClosingBrace_ge (offsetToLine_le_linesLength s m.start h)
  · exact estimateComplexity_pos _

theorem recInvariant_mkCppRecord (s : List Char) (m : RegexMatch)
    (h : m.start < (utf8Bytes s).length) :
    recInvariant (mkCppRecord (rustLines s) (lineOffsets s) m) := by
  unfold recInvariant mkCppRecord
  exact ⟨findClosingBrace_ge (offsetToLine_le_linesLength s m.start h),
    estimateComplexity_pos _⟩

theorem recInvariant_mkJavaRecord (s : List Char) (m : RegexMatch)
    (h : m.start < (utf8Bytes s).length) :
    recInvariant (mkJavaRecord (rustLines s) (lineOffsets s) m) := by
  unfold recInvariant mkJavaRecord
  exact ⟨findClosingBrace_ge (offsetToLine_le_linesLength s m.start h),
    estimateComplexity_pos _⟩

theorem recInvariant_mkRustFnRecord (s : List Char) (m : RegexMatch)
    (h : m.start < (utf8Bytes s).length) :
    recInvariant (mkRustFnRecord s (rustLines s) (lineOffsets s) m) := by
  unfold recInvariant mkRustFnRecord
  exact ⟨findClosingBrace_ge (offsetToLine_le_linesLength s m.start h),
    estimateComplexity_pos _⟩

theorem recInvariant_mkRustStructRecord (s : List Char) (m : RegexMatch)
    (h : m.start < (utf8Bytes s).length) :
    recInvariant (mkRustStructRecord (rustLines s) (lineOffsets s) m) := by
  unfold recInvariant mkRustStructRecord
  exact ⟨findClosingBrace_ge (offsetToLine_le_linesLength s m.start h),
    Nat.le_refl 1⟩

theorem recInvariant_mkNimRecord (s : List Char) (m : RegexMatch)
    (h : m.start < (utf8Bytes s).length) :
    recInvariant (mkNimRecord (rustLines s) (lineOffsets s) m) := by
  unfold recInvariant mkNimRecord
  exact ⟨findIndentationEnd_ge (offsetToLine_le_linesLength s m.start h),
    estimateComplexity_pos _⟩

theorem recInvariant_mkPyFnRecord (s : List Char) (m : RegexMatch)
    (h : m.start < (utf8Bytes s).length) :
    recInvariant (mkPyFnRecord s (rustLines s) (lineOffsets s) m) := by
  unfold recInvariant mkPyFnRecord
  exact ⟨findPythonEnd_ge (offsetToLine_le_linesLength s m.start h),
    estimateComplexity_pos _⟩

theorem recInvariant_mkPyClassRecord (s : List Char) (m : RegexMatch)
    (h : m.start < (utf8Bytes s).length) :
    recInvariant (mkPyClassRecord (rustLines s) (lineOffsets s) m) := by
  unfold recInvariant mkPyClassRecord
  exact ⟨findPythonEnd_ge (offsetToLine_le_linesLength s m.start h),
    Nat.le_refl 1⟩

theorem recInvariant_mkRubyFnRecord (s : List Char) (m : RegexMatch)
    (h : m.start < (utf8Bytes s).length) :
    recInvariant (mkRubyFnRecord (rustLines s) (lineOffsets s) m) := by
  unfold recInvariant mkRubyFnRecord
  exact ⟨findRubyEnd_ge (offsetToLine_le_linesLength s m.start h),
    estimateComplexity_pos _⟩

theorem recInvariant_mkRubyClassRecord (s : List Char) (m : RegexMatch)
    (h : m.start < (utf8Bytes s).length) :
    recInvariant (mkRubyClassRecord (rustLines s) (lineOffsets s) m) := by
  unfold recInvariant mkRubyClassRecord
  exact ⟨findRubyEnd_ge (offsetToLine_le_linesLength s m.start h),
    Nat.le_refl 1⟩

theorem recInvariant_mkJsFnRecord (s : List Char) (m : RegexMatch)
    (h : m.start < (utf8Bytes s).length) :
    recInvariant (mkJsFnRecord (rustLines s) (lineOffsets s) m) := by
  unfold recInvariant mkJsFnRecord
  exact ⟨findClosingBrace_ge (offsetToLine_le_linesLength s m.start h),
    estimateComplexity_pos _⟩

theorem recInvariant_mkJsClassRecord (s : List Char) (m : RegexMatch)
    (h : m.start < (utf8Bytes s).length) :
    recInvariant (mkJsClassRecord (rustLines s) (lineOffsets s) m) := by
  unfold recInvariant mkJsClassRecord
  exact ⟨findClosingBrace_ge (offsetToLine_le_linesLength s m.start h),
    Nat.le_refl 1⟩

theorem recInvariant_mkPhpFnRecord (s : List Char) (m : RegexMatch)
    (h : m.start < (utf8Bytes s).length) :
    recInvariant (mkPhpFnRecord (rustLines s) (lineOffsets s) m) := by
  unfold recInvariant mkPhpFnRecord
  exact ⟨findClosingBrace_ge (offsetToLine_le_linesLength s m.start h),
    estimateComplexity_pos _⟩

theorem recInvariant_mkPhpClassRecord (s : List Char) (m : RegexMatch)
    (h : m.start < (utf8Bytes s).length) :
    recInvariant (mkPhpClassRecord (rustLines s) (lineOffsets s) m) := by
  unfold recInvariant mkPhpClassRecord
  exact ⟨findClosingBrace_ge (offsetToLine_le_linesLength s m.start h),
    Nat.le_refl 1⟩

theorem recInvariant_mkSwiftFnRecord (s : List Char) (m : RegexMatch)
    (h : m.start < (utf8Bytes s).length) :
    recInvariant (mkSwiftFnRecord (rustLines s) (lineOffsets s) m) := by
  unfold recInvariant mkSwiftFnRecord
  exact ⟨findClosingBrace_ge (offsetToLine_le_linesLength s m.start h),
    estimateComplexity_pos _⟩

theorem recInvariant_mkSwiftClassRecord (s : List Char) (m : RegexMatch)
    (h : m.start < (utf8Bytes s).length) :
    recInvariant (mkSwiftClassRecord (rustLines s) (lineOffsets s) m) := by
  unfold recInvariant mkSwiftClassRecord
  exact ⟨findClosingBrace_ge (offsetToLine_le_linesLength s m.start h),
    Nat.le_refl 1⟩

/-- C1: for every input text and every language extractor (each one
parametrised by the match lists its patterns produce, whose match starts
are byte offsets inside the text), every record in the returned list
satisfies `line_end ≥ line_start` and `complexity ≥ 1`. -/
theorem c1_record_invariants (s : List Char) (fnMs clsMs : List RegexMatch)
    (hfn : ∀ m ∈ fnMs, m.start < (utf8Bytes s).length)
    (hcls : ∀ m ∈ clsMs, m.start < (utf8Bytes s).length) :
    (∀ r ∈ rustExtractFromMatches s fnMs clsMs, recInvariant r) ∧
    (∀ r ∈ goExtractFromMatches s fnMs, recInvariant r) ∧
    (∀ r ∈ cppExtractFromMatches s fnMs, recInvariant r) ∧
    (∀ r ∈ javaExtractFromMatches s fnMs, recInvariant r) ∧
    (∀ r ∈ nimExtractFromMatches s fnMs, recInvariant r) ∧
    (∀ r ∈ pythonExtractFromMatches s fnMs clsMs, recInvariant r) ∧
    (∀ r ∈ rubyExtractFromMatches s fnMs clsMs, recInvariant r) ∧
    (∀ r ∈ jsExtractFromMatches s fnMs clsMs, recInvariant r) ∧
    (∀ r ∈ phpExtractFromMatches s fnMs clsMs, recInvariant r) ∧
    (∀ r ∈ swiftExtractFromMatches s fnMs clsMs, recInvariant r) := by
  refine ⟨?_, ?_, ?_, ?_, ?_, ?_, ?_, ?_, ?_, ?_⟩
  · intro r hr
    simp only [rustExtractFromMatches] at hr
    rw [List.Perm.mem_iff (List.perm_insertionSort byStart _),
      List.mem_append] at hr
    rcases hr with hr | hr
    · obtain ⟨m, hm, rfl⟩ := List.mem_map.mp hr
      exact recInvariant_mkRustFnRecord s m
        (hfn m (mem_of_mem_dedupByStart (List.mem_filter.mp hm).1))
    · obtain ⟨m, hm, rfl⟩ := List.mem_map.mp hr
      exact recInvariant_mkRustStructRecord s m (hcls m hm)
  · intro r hr
    simp only [goExtractFromMatches] at hr
    obtain ⟨m, hm, rfl⟩ := List.mem_map.mp hr
    exact recInvariant_mkGoRecord s m (hfn m hm)
  · intro r hr
    simp only [cppExtractFromMatches] at hr
    obtain ⟨m, hm, rfl⟩ := List.mem_map.mp hr
    exact recInvariant_mkCppRecord s m
      (hfn m (mem_of_mem_dedupByStart (List.mem_filter.mp hm).1))
  · intro r hr
    simp only [javaExtractFromMatches] at hr
    obtain ⟨m, hm, rfl⟩ := List.mem_map.mp hr
    exact recInvariant_mkJavaRecord s m
      (hfn m (mem_of_mem_dedupByStart (List.mem_filter.mp hm).1))
  · intro r hr
    simp only [nimExtractFromMatches] at hr
    obtain ⟨m, hm, rfl⟩ := List.mem_map.mp hr
    exact recInvariant_mkNimRecord s m (hfn m hm)
  · intro r hr
    simp only [pythonExtractFromMatches] at hr
    rw [List.Perm.mem_iff (List.perm_insertionSort byStart _),
      List.mem_append] at hr
    rcases hr with hr | hr
    · obtain ⟨m, hm, rfl⟩ := List.mem_map.mp hr
      exact recInvariant_mkPyFnRecord s m (hfn m hm)
    · obtain ⟨m, hm, rfl⟩ := List.mem_map.mp hr
      exact recInvariant_mkPyClassRecord s m (hcls m hm)
  · intro r hr
    simp only [rubyExtractFromMatches] at hr
    rw [List.Perm.mem_iff (List.perm_insertionSort byStart _),
      List.mem_append] at hr
    rcases hr with hr | hr
    · obtain ⟨m, hm, rfl⟩ := List.mem_map.mp hr
      exact recInvariant_mkRubyFnRecord s m
        (hfn m (mem_of_mem_dedupByStart hm))
    · obtain ⟨m, hm, rfl⟩ := List.mem_map.mp hr
      exact recInvariant_mkRubyClassRecord s m (hcls m hm)
  · intro r hr
    simp only [jsExtractFromMatches] at hr
    rw [List.Perm.mem_iff (List.perm_insertionSort byStart _),
      List.mem_append] at hr
    rcases hr with hr | hr
    · obtain ⟨m, hm, rfl⟩ := List.mem_map.mp hr
      exact recInvariant_mkJsFnRecord s m
        (hfn m (mem_of_mem_dedupByStart (List.mem_filter.mp hm).1))
    · obtain ⟨m, hm, rfl⟩ := List.mem_map.mp hr
      exact recInvariant_mkJsClassRecord s m (hcls m hm)
  · intro r hr
    simp only [phpExtractFromMatches] at hr
    rw [List.Perm.mem_iff (List.perm_insertionSort byStart _),
      List.mem_append] at hr
    rcases hr with hr | hr
    · obtain ⟨m, hm, rfl⟩ := List.mem_map.mp hr
      exact recInvariant_mkPhpFnRecord s m
        (hfn m (mem_of_mem_dedupByStart hm))
    · obtain ⟨m, hm, rfl⟩ := List.mem_map.mp hr
      exact recInvariant_mkPhpClassRecord s m (hcls m hm)
  · intro r hr
    simp only [swiftExtractFromMatches] at hr
    rw [List.Perm.mem_iff (List.perm_insertionSort byStart _),
      List.mem_append] at hr
    rcases hr with hr | hr
    · obtain ⟨m, hm, rfl⟩ := List.mem_map.mp hr
      exact recInvariant_mkSwiftFnRecord s m
        (hfn m (mem_of_mem_dedupByStart hm))
    · obtain ⟨m, hm, rfl⟩ := List.mem_map.mp hr
      exact recInvariant_mkSwiftClassRecord s m (hcls m hm)

/-- Demonstration content for witnesses: a one-line Go source. -/
def demoGoS : List Char := "func a() \x7b\x7d".data

/-- The (single) match a Go fn pattern produces on `demoGoS`. -/
def demoGoM : RegexMatch :=
  ⟨0, 0, demoGoS, some "a".data, some [], 0, false, false⟩

/-- Witness for `c1_record_invariants` at a concrete input. -/
theorem c1_record_invariants_witness :
    recInvariant ⟨"a".data, 1, 1, [], false, false, false, none, [], 1⟩ :=
  (c1_record_invariants demoGoS [demoGoM] [] (by decide) (by decide)).2.1
    ⟨"a".data, 1, 1, [], false, false, false, none, [], 1⟩ (by decide)

theorem offsetToLine_mono (offsets : List Nat) {o1 o2 : Nat} (h : o1 ≤ o2) :
    offsetToLine offsets o1 ≤ offsetToLine offsets o2 := by
  unfold offsetToLine
  apply List.countP_mono_left
  intro x _ hx
  simp only [decide_eq_true_eq] at hx ⊢
  omega

/-- C5: every extractor emits its records sorted in non-decreasing
`line_start` order — the six extractors ending in `sort_by_key` by
construction, and the four without a sort (Go, C/C++, Java, Nim) because
the regex iterator hands over matches with strictly increasing start
offsets (the `hmono` hypothesis) and `offset_to_line` is monotone. -/
theorem c5_sorted_output (s : List Char) (fnMs clsMs : List RegexMatch)
    (hmono : List.Pairwise (fun a b : RegexMatch => a.start < b.start) fnMs) :
    List.Sorted byStart (goExtractFromMatches s fnMs) ∧
    List.Sorted byStart (cppExtractFromMatches s fnMs) ∧
    List.Sorted byStart (javaExtractFromMatches s fnMs) ∧
    List.Sorted byStart (nimExtractFromMatches s fnMs) ∧
    List.Sorted byStart (rustExtractFromMatches s fnMs clsMs) ∧
    List.Sorted byStart (pythonExtractFromMatches s fnMs clsMs) ∧
    List.Sorted byStart (rubyExtractFromMatches s fnMs clsMs) ∧
    List.Sorted byStart (jsExtractFromMatches s fnMs clsMs) ∧
    List.Sorted byStart (phpExtractFromMatches s fnMs clsMs) ∧
    List.Sorted byStart (swiftExtractFromMatches s fnMs clsMs) := by
  have hsubCpp : List.Sublist
      ((dedupByStart fnMs []).filter (fun m => ¬(m.name.getD qmarkName) ∈ cppSkip))
      fnMs := (List.filter_sublist _).trans (dedupByStart_sublist fnMs [])
  have hsubJava : List.Sublist
      ((dedupByStart fnMs []).filter (fun m => ¬(m.name.getD qmarkName) ∈ javaSkip))
      fnMs := (List.filter_sublist _).trans (dedupByStart_sublist fnMs [])
  refine ⟨?_, ?_, ?_, ?_, ?_, ?_, ?_, ?_, ?_, ?_⟩
  · exact List.pairwise_map.mpr
      (hmono.imp fun hab => offsetToLine_mono _ (Nat.le_of_lt hab))
  · exact List.pairwise_map.mpr
      ((hmono.sublist hsubCpp).imp fun hab =>
        offsetToLine_mono _ (Nat.le_of_lt hab))
  · exact List.pairwise_map.mpr
      ((hmono.sublist hsubJava).imp fun hab =>
        offsetToLine_mono _ (Nat.le_of_lt hab))
  · exact List.pairwise_map.mpr
      (hmono.imp fun hab => offsetToLine_mono _ (Nat.le_of_lt hab))
  · exact List.sorted_insertionSort byStart _
  · exact List.sorted_insertionSort byStart _
  · exact List.sorted_insertionSort byStart _
  · exact List.sorted_insertionSort byStart _
  · exact List.sorted_insertionSort byStart _
  · exact List.sorted_insertionSort byStart _

/-- Witness for `c5_sorted_output` at a concrete input: a two-match Go
source, strict starts discharged by `decide`. -/
theorem c5_sorted_output_witness :
    List.Sorted byStart (goExtractFromMatches
      "func a() \x7b\x7d\nfunc b() \x7b\x7d".data
      [⟨0, 0, "func a() \x7b\x7d".data, some "a".data, some [], 0, false, false⟩,
       ⟨12, 12, "func b() \x7b\x7d".data, some "b".data, some [], 0, false, false⟩]) :=
  (c5_sorted_output "func a() \x7b\x7d\nfunc b() \x7b\x7d".data
    [⟨0, 0, "func a() \x7b\x7d".data, some "a".data, some [], 0, false, false⟩,
     ⟨12, 12, "func b() \x7b\x7d".data, some "b".data, some [], 0, false, false⟩]
    [] (by decide)).1

/-- C4: on the 6-line input `fn hello() {` / `  let x = "}";` / `  if true {`
/ `    foo();` / `  }` / `}`, the brace-depth resolver started at line 1
returns `line_end = 6`: the closing brace inside the double-quoted string
literal on line 2 is ignored by the string-literal state machine. -/
theorem c4_brace_scanner_ignores_string_brace :
    findClosingBrace
      ["fn hello() \x7b".data, "  let x = \"\x7d\";".data,
       "  if true \x7b".data, "    foo();".data, "  \x7d".data, "\x7d".data]
      1 = 6 := by
  simp [findClosingBrace, fcbLines, fcbChars, closeQuoteDist, dquote, btick,
    squote, obrace, cbrace]

/-- C6: on the Ruby input `def foo\n  if x\n    1\n  end\nend`, extraction
yields exactly one record, for `foo`, with `line_start = 1` and
`line_end = 5`: the def line is the first opener and the inner `if`/`end`
pair raises and lowers the depth without closing the block. -/
theorem c6_ruby_keyword_depth :
    rubyExtract "def foo\n  if x\n    1\n  end\nend".data =
      [⟨"foo".data, 1, 5, [], false, false, false, none, [], 2⟩] := by
  decide

/-- C2 (behaviour of the code at the claimed input): on the Go input
`func (r *Repo) Get(id int) string { return "" }` the extractor produces a
record named `Get` with `is_method = true`, but with `parameters` equal to
the ONE-element list `["id int"]`: `parse_params` splits only at top-level
commas and `id int` holds none, so the field survives whole. The repo's own
test (`test_extract_go_functions`) instead asserts the two-element list
`["id", "int"]`. -/
theorem c2_go_params_actual_behavior :
    goExtract "func (r *Repo) Get(id int) string \x7b return \"\" \x7d".data =
      [⟨"Get".data, 1, 1, ["id int".data], false, true, false, none, [], 1⟩] := by
  decide

set_option maxHeartbeats 1000000 in
/-- C9: an extension outside the known table yields no extractor, and
file-level function extraction for such a file is the empty list, not an
error, whatever the per-language extract implementations and read outcome. -/
theorem c9_unknown_extension_empty (ext : String)
    (h : ¬ext ∈ knownExtensions) :
    getExtractor ext = none ∧
    ∀ (run : Lang → List Char → List FunctionInfo)
      (content : Option (List Char)),
      extractFileFunctions run content ext = [] := by
  have hnone : getExtractor ext = none := by
    unfold getExtractor
    split_ifs with h1 h2 h3 h4 h5 h6 h7 h8 h9 h10
    · exfalso; subst h1; exact h (by decide)
    · exfalso; rcases h2 with rfl | rfl | rfl <;> exact h (by decide)
    · exfalso
      rcases h3 with rfl | rfl | rfl | rfl | rfl | rfl <;> exact h (by decide)
    · exfalso; subst h4; exact h (by decide)
    · exfalso
      rcases h5 with rfl | rfl | rfl | rfl | rfl | rfl | rfl <;>
        exact h (by decide)
    · exfalso
      rcases h6 with rfl | rfl | rfl | rfl | rfl <;> exact h (by decide)
    · exfalso
      rcases h7 with rfl | rfl | rfl | rfl | rfl <;> exact h (by decide)
    · exfalso; subst h8; exact h (by decide)
    · exfalso; rcases h9 with rfl | rfl | rfl <;> exact h (by decide)
    · exfalso; rcases h10 with rfl | rfl <;> exact h (by decide)
    · rfl
  refine ⟨hnone, ?_⟩
  intro run content
  unfold extractFileFunctions
  cases content with
  | none => rfl
  | some c => rw [hnone]

/-- Witness for `c9_unknown_extension_empty` at the concrete extension
`.txt`. -/
theorem c9_unknown_extension_empty_witness :
    getExtractor ".txt" = none ∧
    extractFileFunctions (fun _ _ => []) (some "x".data) ".txt" = [] :=
  ⟨(c9_unknown_extension_empty ".txt" (by decide)).1,
   (c9_unknown_extension_empty ".txt" (by decide)).2 (fun _ _ => [])
     (some "x".data)⟩

theorem parseParamsAux_eq_split (cs : List Char) (cur : List Char)
    (depth : Int) :
    parseParamsAux cs cur depth =
      ((splitTopAux cs cur depth).map rustTrim).filter keepParamField := by
  induction cs generalizing cur depth with
  | nil =>
    by_cases h : keepParamField (rustTrim cur) <;>
      simp [parseParamsAux, splitTopAux, List.filter_cons, h]
  | cons c rest ih =>
    unfold parseParamsAux splitTopAux
    split_ifs with hb1 hb2 hb3
    · exact ih _ _
    · exact ih _ _
    · rw [List.map_cons, List.filter_cons]
      by_cases h : keepParamField (rustTrim cur) <;> simp [h, ih]
    · exact ih _ _

/-- C7: `parse_params` splits its raw substring exactly at the commas at
bracket depth 0 (depth tracked across angle, square and round brackets),
trims every field, drops the fields that trim to nothing or to the literal
`void`, and emits the survivors in source order. -/
theorem c7_parse_params_spec (raw : List Char) :
    parseParams raw =
      ((splitTopLevelCommas raw).map rustTrim).filter keepParamField :=
  parseParamsAux_eq_split raw [] 0

theorem occPositions_sorted (s pat : List Char) :
    List.Pairwise (fun a b => a < b) (occPositions s pat) :=
  (List.pairwise_lt_range _).sublist (List.filter_sublist _)

theorem getLast?_eq_some_iff_max {l : List Nat}
    (hl : List.Pairwise (fun a b => a < b) l) {x : Nat} :
    l.getLast? = some x ↔ x ∈ l ∧ ∀ y ∈ l, y ≤ x := by
  induction l with
  | nil => simp
  | cons a t ih =>
    obtain ⟨ha, ht⟩ := List.pairwise_cons.mp hl
    cases t with
    | nil =>
      simp only [List.getLast?_singleton, Option.some.injEq,
        List.mem_singleton]
      constructor
      · rintro rfl
        refine ⟨rfl, ?_⟩
        intro y hy
        omega
      · rintro ⟨hx, _⟩
        exact hx.symm
    | cons b t2 =>
      rw [List.getLast?_cons_cons, ih ht]
      constructor
      · rintro ⟨hm, hall⟩
        refine ⟨List.mem_cons_of_mem a hm, ?_⟩
        intro y hy
        rcases List.mem_cons.mp hy with rfl | hy2
        · have hb := hall b (by simp)
          have hab := ha b (by simp)
          omega
        · exact hall y hy2
      · rintro ⟨hm, hall⟩
        rcases List.mem_cons.mp hm with rfl | hm2
        · exfalso
          have h1 := hall b (by simp)
          have h2 := ha b (by simp)
          omega
        · exact ⟨hm2, fun y hy => hall y (List.mem_cons_of_mem a hy)⟩

/-- The start positions of the `"impl "` occurrences inside the prefix
before a match start. -/
def implOccurrences (content : List Char) (i : Nat) : List Nat :=
  occPositions (content.take i) "impl ".data

/-- C8: a matched Rust fn is flagged `is_method` exactly when some
occurrence of `"impl "` exists before the match start and the text from the
nearest (i.e. greatest-position, the `rfind` result) such occurrence up to
the match start contains no blank line (no `"\n\n"`). -/
theorem c8_rust_method_heuristic (content : List Char) (i : Nat) :
    rustIsMethod content i = true ↔
      ∃ pos, pos ∈ implOccurrences content i ∧
        (∀ q ∈ implOccurrences content i, q ≤ pos) ∧
        containsSub ((content.take i).drop pos) "\n\n".data = false := by
  unfold rustIsMethod
  cases hr : rfindSub (content.take i) "impl ".data with
  | none =>
    have hocc : implOccurrences content i = [] :=
      List.getLast?_eq_none_iff.mp hr
    simp only [hr]
    constructor
    · intro hx
      exact absurd hx (by simp)
    · rintro ⟨pos, hmem, -, -⟩
      rw [hocc] at hmem
      simp at hmem
  | some pos' =>
    have hmax := (getLast?_eq_some_iff_max (occPositions_sorted _ _)).mp hr
    simp only [hr]
    constructor
    · intro hx
      refine ⟨pos', hmax.1, hmax.2, ?_⟩
      simpa using hx
    · rintro ⟨pos, hmem, hall, hns⟩
      have h1 : pos ≤ pos' := hmax.2 pos hmem
      have h2 : pos' ≤ pos := hall pos' hmax.1
      have he : pos = pos' := Nat.le_antisymm h1 h2
      subst he
      simpa using hns

theorem containsSub_iff_infix (s pat : List Char) :
    containsSub s pat = true ↔ List.IsInfix pat s := by
  induction s with
  | nil => simp [containsSub, List.isEmpty_iff]
  | cons c rest ih =>
    simp only [containsSub, Bool.or_eq_true, ih,
      List.isPrefixOf_iff_prefix]
    rw [List.infix_cons_iff]

theorem rustTrimEnd_append_of_getLast_not_ws {pat : List Char}
    (a b : List Char) (hne : pat ≠ [])
    (hlast : isRustWs (pat.getLast hne) = false) :
    rustTrimEnd (a ++ pat ++ b) = a ++ pat ++ rustTrimEnd b := by
  have hrev : pat.reverse = pat.getLast hne :: pat.dropLast.reverse := by
    conv_lhs => rw [← List.dropLast_append_getLast hne]
    rw [List.reverse_append]
    simp
  unfold rustTrimEnd
  rw [List.append_assoc, List.reverse_append, List.reverse_append,
    List.append_assoc, List.dropWhile_append]
  have hdrop : (pat.reverse ++ a.reverse).dropWhile isRustWs =
      pat.reverse ++ a.reverse := by
    rw [hrev, List.cons_append, List.dropWhile_cons]
    simp [hlast]
  split_ifs with hcase
  · rw [hdrop]
    rw [List.isEmpty_iff] at hcase
    simp [hcase]
  · simp [List.reverse_append, List.append_assoc]

/-- The suppression condition of C10, phrased as the claim states it: the
right-trimmed content before the match start both ends with `]` and
contains `#[test]`, or it contains `#[tokio::test]` anywhere. -/
def rustTestSuppressSpec (content : List Char) (i : Nat) : Prop :=
  (List.IsSuffix "]".data (rustTrimEnd (content.take i)) ∧
    List.IsInfix "#[test]".data (rustTrimEnd (content.take i))) ∨
  List.IsInfix "#[tokio::test]".data (rustTrimEnd (content.take i))

theorem rustKeepsFn_false_iff (content : List Char) (i : Nat) :
    rustKeepsFn content i = false ↔ rustTestSuppressSpec content i := by
  simp [rustKeepsFn, rustTestSuppressSpec, endsWithSub,
    containsSub_iff_infix]
  tauto

/-- C10: a matched Rust fn produces no record exactly when the right-trimmed
prefix before the match both ends with `]` and contains `#[test]`, or
contains `#[tokio::test]`; consequently every fn after a full occurrence of
`#[tokio::test]` is suppressed, while `#[test]` suppresses only a fn whose
preceding trimmed text ends with `]`. -/
theorem c10_rust_test_attribute_suppression (content : List Char) (i : Nat) :
    (rustKeepsFn content i = false ↔ rustTestSuppressSpec content i) ∧
    (List.IsInfix "#[tokio::test]".data (content.take i) →
      rustKeepsFn content i = false) ∧
    (List.IsInfix "#[test]".data (rustTrimEnd (content.take i)) →
      ¬List.IsSuffix "]".data (rustTrimEnd (content.take i)) →
      ¬List.IsInfix "#[tokio::test]".data (rustTrimEnd (content.take i)) →
      rustKeepsFn content i = true) := by
  refine ⟨rustKeepsFn_false_iff content i, ?_, ?_⟩
  · intro h
    obtain ⟨u, v, huv⟩ := h
    apply (rustKeepsFn_false_iff content i).mpr
    right
    rw [← huv, rustTrimEnd_append_of_getLast_not_ws u v (by decide) (by decide)]
    exact ⟨u, rustTrimEnd v, rfl⟩
  · intro h1 h2 h3
    cases hk : rustKeepsFn content i with
    | true => rfl
    | false =>
      rcases (rustKeepsFn_false_iff content i).mp hk with ⟨hs, -⟩ | ht
      · exact absurd hs h2
      · exact absurd ht h3

/-- Witness for `c10_rust_test_attribute_suppression` at two concrete
inputs: a fn after `#[tokio::test]` is suppressed; a fn whose prefix
contains `#[test]` but whose trimmed prefix does not end with `]` is kept. -/
theorem c10_rust_test_attribute_suppression_witness :
    rustKeepsFn "#[tokio::test]\nfn a".data 15 = false ∧
    rustKeepsFn "#[test] x\nfn b".data 10 = true :=
  ⟨(c10_rust_test_attribute_suppression "#[tokio::test]\nfn a".data 15).2.1
      ⟨[], "\n".data, by decide⟩,
   (c10_rust_test_attribute_suppression "#[test] x\nfn b".data 10).2.2
      ⟨[], " x".data, by decide⟩ (by decide) (by decide)⟩

/-- A UTF-8 continuation byte (`0x80..0xBF`). Rust's
`str::is_char_boundary` classifies a position by exactly this test on the
byte stored there. -/
def isContByte (b : Nat) : Bool := 0x80 ≤ b ∧ b < 0xC0

/-- Rust's `str::is_char_boundary`: position 0 and the end are boundaries;
an interior position is a boundary iff its byte is not a continuation
byte; a position past the end is not a boundary. Slicing a `str` at a
non-boundary position panics. -/
def isCharBoundary (bs : List Nat) (i : Nat) : Bool :=
  if i = 0 then true
  else
    match bs.drop i with
    | [] => i = bs.length
    | b :: _ => ¬isContByte b

/-- Checked model of the byte slice `&s[i..]`: `none` is the panic. -/
def byteDrop? (bs : List Nat) (i : Nat) : Option (List Nat) :=
  if isCharBoundary bs i then some (bs.drop i) else none

/-- Checked model of the byte slice `&s[..i]`: `none` is the panic. -/
def byteTake? (bs : List Nat) (i : Nat) : Option (List Nat) :=
  if isCharBoundary bs i then some (bs.take i) else none

/-- Occurrence start positions of a byte pattern. -/
def occPositionsB (s pat : List Nat) : List Nat :=
  (List.range (s.length + 1)).filter (fun i => pat.isPrefixOf (s.drop i))

/-- `str::find` at the byte level. -/
def findSubB (s pat : List Nat) : Option Nat := (occPositionsB s pat).head?

/-- `str::rfind` at the byte level. -/
def rfindSubB (s pat : List Nat) : Option Nat := (occPositionsB s pat).getLast?

/-- ASCII whitespace test on a byte, used only for the returned value of
the byte-level docstring model (the safety claim concerns the slicing, not
the trimmed value). -/
def isWsByte (b : Nat) : Bool := b = 0x20 ∨ (9 ≤ b ∧ b ≤ 13)

/-- Byte-level trim of the already-sliced docstring text. -/
def trimBytes (bs : List Nat) : List Nat :=
  ((bs.dropWhile isWsByte).reverse.dropWhile isWsByte).reverse

/-- The loop of `extract_py_docstring` with every `str` slice performed as a
checked byte slice: the outer `none` is a panic (slicing off a character
boundary), `some none` means no docstring line found, `some (some v)` a
docstring. `&t[3..]` is `byteDrop? tb 3`; `inner[..end]` after
`inner.find(quote) = Some end` is `byteTake? inner e`. -/
def pyDocstringBytesGo : List (List Char) → Option (Option (List Nat))
  | [] => some none
  | line :: rest =>
    let t := rustTrim line
    if dq3.isPrefixOf t ∨ sq3.isPrefixOf t then
      let q := if dq3.isPrefixOf t then dq3 else sq3
      let tb := utf8Bytes t
      match byteDrop? tb 3 with
      | none => none
      | some inner =>
        match findSubB inner (utf8Bytes q) with
        | some e =>
          match byteTake? inner e with
          | none => none
          | some pre => some (some (trimBytes pre))
        | none => some (some (trimBytes inner))
    else pyDocstringBytesGo rest

/-- `extract_py_docstring` over lines 2–6 of the block, byte-checked. -/
def pyDocstringBytes (block : List (List Char)) : Option (Option (List Nat)) :=
  pyDocstringBytesGo ((block.drop 1).take 5)

/-- The two byte slices of `collect_python_decorators`, checked:
`&content[..fn_start]` then `&before[last_blank..]` with
`last_blank = before.rfind("\n\n").unwrap_or(0)`. -/
def pyDecoratorSliceBytes (content : List Char) (fnStart : Nat) :
    Option (List Nat) :=
  match byteTake? (utf8Bytes content) fnStart with
  | none => none
  | some before => byteDrop? before ((rfindSubB before [10, 10]).getD 0)

theorem utf8Bytes_append (a b : List Char) :
    utf8Bytes (a ++ b) = utf8Bytes a ++ utf8Bytes b := by
  induction a with
  | nil => rfl
  | cons c rest ih =>
    rw [List.cons_append, utf8Bytes_cons, utf8Bytes_cons, ih,
      List.append_assoc]

theorem utf8EncodeChar_head_not_cont (c : Char) (b : Nat)
    (hb : (utf8EncodeChar c).head? = some b) : isContByte b = false := by
  unfold utf8EncodeChar at hb
  split_ifs at hb with h1 h2 h3 <;> simp at hb <;>
    simp [← hb, isContByte] <;> omega

theorem utf8Bytes_head_not_cont (s : List Char) (b : Nat)
    (hb : (utf8Bytes s).head? = some b) : isContByte b = false := by
  cases s with
  | nil => simp [utf8Bytes_nil] at hb
  | cons c rest =>
    rw [utf8Bytes_cons] at hb
    cases he : utf8EncodeChar c with
    | nil => exact absurd he (utf8EncodeChar_ne_nil c)
    | cons b0 bs0 =>
      rw [he] at hb
      simp at hb
      exact utf8EncodeChar_head_not_cont c b (by rw [he, ← hb]; rfl)

theorem isCharBoundary_of_head_not_cont {bs : List Nat} {i : Nat}
    (h : ∀ b, (bs.drop i).head? = some b → isContByte b = false)
    (hlen : bs.drop i = [] → i = bs.length) :
    isCharBoundary bs i = true := by
  unfold isCharBoundary
  split_ifs with h0
  · rfl
  · cases hd : bs.drop i with
    | nil => simp [hlen hd]
    | cons b rest => simp [h b (by rw [hd]; rfl)]

theorem mem_occPositionsB {s pat : List Nat} {e : Nat}
    (hmem : e ∈ occPositionsB s pat) :
    pat.isPrefixOf (s.drop e) = true := by
  unfold occPositionsB at hmem
  exact (List.mem_filter.mp hmem).2

theorem occPositionsB_boundary {s pat : List Nat} {e : Nat}
    (hne : pat ≠ []) (hhead : ∀ b, pat.head? = some b → b < 0x80)
    (hmem : e ∈ occPositionsB s pat) : isCharBoundary s e = true := by
  have hp := mem_occPositionsB hmem
  rw [List.isPrefixOf_iff_prefix] at hp
  obtain ⟨t, ht⟩ := hp
  cases hq : pat with
  | nil => exact absurd hq hne
  | cons b0 p2 =>
    apply isCharBoundary_of_head_not_cont
    · intro b hb
      rw [← ht, hq] at hb
      simp at hb
      have hb0 := hhead b0 (by rw [hq]; rfl)
      simp [← hb, isContByte]
      omega
    · intro hd
      rw [← ht, hq] at hd
      simp at hd

theorem head?_mem_of_eq_some {α : Type} {l : List α} {a : α}
    (h : l.head? = some a) : a ∈ l := by
  cases l with
  | nil => simp at h
  | cons b rest => simp at h; simp [h]

theorem getLast?_mem_of_eq_some {α : Type} {l : List α} {a : α}
    (h : l.getLast? = some a) : a ∈ l := by
  rcases List.mem_getLast?_eq_getLast (by simp [h] : a ∈ l.getLast?) with ⟨hne, ha⟩
  rw [ha]
  exact List.getLast_mem hne

theorem pyDocQuoteBranch_safe (t q0 : List Char) (b : Nat)
    (hb80 : b < 0x80) (hbytes : utf8Bytes q0 = [b, b, b])
    (hpre : List.IsPrefix q0 t) :
    (match byteDrop? (utf8Bytes t) 3 with
     | none => (none : Option (Option (List Nat)))
     | some inner =>
       match findSubB inner (utf8Bytes q0) with
       | some e =>
         match byteTake? inner e with
         | none => none
         | some pre => some (some (trimBytes pre))
       | none => some (some (trimBytes inner))) ≠ none := by
  obtain ⟨t2, ht2⟩ := hpre
  have htb : utf8Bytes t = [b, b, b] ++ utf8Bytes t2 := by
    rw [← ht2, utf8Bytes_append, hbytes]
  have hdrop3 : (utf8Bytes t).drop 3 = utf8Bytes t2 := by
    rw [htb]; simp
  have hbound3 : isCharBoundary (utf8Bytes t) 3 = true := by
    apply isCharBoundary_of_head_not_cont
    · intro bb hbb
      rw [hdrop3] at hbb
      exact utf8Bytes_head_not_cont t2 bb hbb
    · intro hd
      rw [hdrop3] at hd
      rw [htb, hd]
      simp
  have hdrop : byteDrop? (utf8Bytes t) 3 = some ((utf8Bytes t).drop 3) := by
    simp [byteDrop?, hbound3]
  rw [hdrop]
  dsimp only
  cases hfind : findSubB ((utf8Bytes t).drop 3) (utf8Bytes q0) with
  | none => simp
  | some e =>
    have hmem : e ∈ occPositionsB ((utf8Bytes t).drop 3) (utf8Bytes q0) :=
      head?_mem_of_eq_some hfind
    have hbe : isCharBoundary ((utf8Bytes t).drop 3) e = true := by
      apply occPositionsB_boundary (by rw [hbytes]; simp) ?_ hmem
      intro bb hbb
      rw [hbytes] at hbb
      simp at hbb
      omega
    simp [byteTake?, hbe]

theorem pyDocstringBytesGo_ne_none (ls : List (List Char)) :
    pyDocstringBytesGo ls ≠ none := by
  induction ls with
  | nil => simp [pyDocstringBytesGo]
  | cons line rest ih =>
    simp only [pyDocstringBytesGo]
    split_ifs with hq hd
    · exact pyDocQuoteBranch_safe (rustTrim line) dq3 34 (by omega)
        (by decide) (List.isPrefixOf_iff_prefix.mp hd)
    · have hs : sq3.isPrefixOf (rustTrim line) := by
        rcases hq with h | h
        · exact absurd h hd
        · exact h
      exact pyDocQuoteBranch_safe (rustTrim line) sq3 39 (by omega)
        (by decide) (List.isPrefixOf_iff_prefix.mp hs)
    · exact ih

/-- C3: the extraction helpers never hit a panic site. All quote fences and
search patterns are ASCII, so every slice index the helpers produce lands on
a character boundary even in multi-byte UTF-8 input, and the scanner index
arithmetic stays inside the line array: (1) the docstring helper's byte
slices `&t[3..]` and `inner[..end]` always succeed; (2) the decorator
helper's slices `&content[..fn_start]` and `&before[last_blank..]` always
succeed when the regex match start is a character boundary (the regex crate
guarantees this); (3) the slice bounds `lines[start_line-1..]` and
`lines[start-1 .. line_end.min(len)]` around `find_closing_brace` are in
range for every resolved `line_start`. -/
theorem c3_no_caller_visible_panic :
    (∀ block : List (List Char), pyDocstringBytes block ≠ none) ∧
    (∀ (content : List Char) (fnStart : Nat),
      isCharBoundary (utf8Bytes content) fnStart = true →
      pyDecoratorSliceBytes content fnStart ≠ none) ∧
    (∀ (lines : List (List Char)) (ls : Nat), 1 ≤ ls → ls ≤ lines.length →
      ls - 1 ≤ lines.length ∧
      ls - 1 ≤ min (findClosingBrace lines ls) lines.length ∧
      min (findClosingBrace lines ls) lines.length ≤ lines.length) := by
  refine ⟨?_, ?_, ?_⟩
  · intro block
    exact pyDocstringBytesGo_ne_none _
  · intro content fnStart hb
    unfold pyDecoratorSliceBytes
    simp only [byteTake?, hb, if_true]
    cases hr : rfindSubB ((utf8Bytes content).take fnStart) [10, 10] with
    | none => simp [byteDrop?, isCharBoundary]
    | some r =>
      have hmem : r ∈ occPositionsB ((utf8Bytes content).take fnStart)
          [10, 10] := getLast?_mem_of_eq_some hr
      have hbr : isCharBoundary ((utf8Bytes content).take fnStart) r = true := by
        apply occPositionsB_boundary (by simp) ?_ hmem
        intro bb hbb
        simp at hbb
        omega
      simp [byteDrop?, hbr]
  · intro lines ls h1 h2
    have h3 := findClosingBrace_ge h2
    refine ⟨by omega, ?_, by omega⟩
    have : ls - 1 ≤ findClosingBrace lines ls := by omega
    omega

/-- Witness for `c3_no_caller_visible_panic` at concrete inputs. -/
theorem c3_no_caller_visible_panic_witness :
    pyDocstringBytes ["def f():".data, "    \"\"\"doc\"\"\"".data] ≠ none ∧
    pyDecoratorSliceBytes "a\n\n@d\ndef f():".data 6 ≠ none ∧
    (1 - 1 ≤ ([[]] : List (List Char)).length ∧
     1 - 1 ≤ min (findClosingBrace [[]] 1) ([[]] : List (List Char)).length ∧
     min (findClosingBrace [[]] 1) ([[]] : List (List Char)).length ≤
       ([[]] : List (List Char)).length) :=
  ⟨c3_no_caller_visible_panic.1 _,
   c3_no_caller_visible_panic.2.1 "a\n\n@d\ndef f():".data 6 (by decide),
   c3_no_caller_visible_panic.2.2 [[]] 1 (by decide) (by decide)⟩

/-- Sanity check mirroring go.rs: a receiver-style parameter list holds a
single comma-free field. -/
theorem chk_parse_params_go : parseParams "id int".data = ["id int".data] := by
  decide

/-- Sanity check: depth-guarded commas are not split points and `void` is
dropped. -/
theorem chk_parse_params_depth : parseParams "a, Vec<u8, C>, void, ".data
    = ["a".data, "Vec<u8, C>".data] := by decide

/-- Sanity check mirroring mod.rs's `test_complexity_estimation` block. -/
theorem chk_complexity : estimateComplexity
    ["if x > 0 \x7b".data, "  for i in 0..10 \x7b".data,
     "    if true && false \x7b \x7d".data, "  \x7d".data,
     "\x7d else if y \x7b".data, "\x7d".data] = 7 := by decide

/-- Sanity check mirroring mod.rs's `test_line_map`. -/
theorem chk_line_map :
    offsetToLine (lineOffsets "line1\nline2\nline3".data) 0 = 1 ∧
    offsetToLine (lineOffsets "line1\nline2\nline3".data) 6 = 2 ∧
    offsetToLine (lineOffsets "line1\nline2\nline3".data) 12 = 3 := by decide

/-- Sanity check mirroring mod.rs's `test_find_closing_brace_robust`
(the variant with the line comment). -/
theorem chk_find_closing_brace_robust : findClosingBrace
    ["fn hello() \x7b".data, "  let x = \"\x7d\"; // false brace".data,
     "  if true \x7b".data, "    println!(\"\x7b\x7d\", x);".data,
     "  \x7d".data, "\x7d".data] 1 = 6 := by
  simp [findClosingBrace, fcbLines, fcbChars, closeQuoteDist, dquote, btick,
    squote, obrace, cbrace]

/-- Sanity check mirroring §8 of the spec: the indentation scanner ends
`f`'s body before `g`. -/
theorem chk_python_indent_end : findPythonEnd
    ["def f():".data, "    pass".data, "def g():".data, "    pass".data]
    1 0 = 2 := by decide
